import Mathlib

/-!
Verification of the scriptdle screenplay-parsing pipeline.

Python strings are modelled as `List Char` (`Str`); all ASCII-level string
operations used by the code under scrutiny (strip, split, upper/lower,
substring search, regex-like scanners hand-compiled from the concrete
patterns in the source) are defined executably below, translated from the
Python source files of the repository.
-/

set_option maxRecDepth 100000
set_option maxHeartbeats 2000000

/-- Python strings, modelled as lists of characters. -/
abbrev Str := List Char

/-- Characters of a Lean string literal, used to write concrete inputs. -/
def strL (s : String) : Str := s.data

/-- The ASCII whitespace set recognised by `str.strip`, `str.split` and the
regex class `\s` (the inputs considered are ASCII). -/
def isPyWs (c : Char) : Bool :=
  c = ' ' || c = '\t' || c = '\n' || c = '\r' || c = '\x0b' || c = '\x0c'

def isAsciiUpper (c : Char) : Bool := 'A' ≤ c && c ≤ 'Z'

def isAsciiLower (c : Char) : Bool := 'a' ≤ c && c ≤ 'z'

def isAsciiDigit (c : Char) : Bool := '0' ≤ c && c ≤ '9'

def isAsciiAlpha (c : Char) : Bool := isAsciiUpper c || isAsciiLower c

/-- The regex word class `\w` (ASCII fragment). -/
def isWordChar (c : Char) : Bool := isAsciiAlpha c || isAsciiDigit c || c = '_'

/-- ASCII lower-casing (`str.lower`); non-ASCII code points are kept, which
is immaterial wherever the result is filtered down to ASCII afterwards. -/
def asciiLower (c : Char) : Char :=
  if isAsciiUpper c then Char.ofNat (c.toNat + 32) else c

/-- ASCII upper-casing (`str.upper`). -/
def asciiUpper (c : Char) : Char :=
  if isAsciiLower c then Char.ofNat (c.toNat - 32) else c

/-- `str.lstrip()`. -/
def pyLstrip (l : Str) : Str := l.dropWhile isPyWs

/-- `str.strip()`. -/
def pyStrip (l : Str) : Str :=
  ((l.dropWhile isPyWs).reverse.dropWhile isPyWs).reverse

/-- Number of leading whitespace characters (`len(line) - len(line.lstrip())`). -/
def countLeadingWs (l : Str) : Nat := (l.takeWhile isPyWs).length

/-- Python `str.isupper()`: at least one cased character and no lower-case
cased character (ASCII model). -/
def pyIsUpper (l : Str) : Bool :=
  l.all (fun c => !isAsciiLower c) && l.any isAsciiUpper

/-- Python `needle in haystack` substring test. -/
def containsSub (needle : Str) : Str → Bool
  | [] => needle.isEmpty
  | c :: rest => needle.isPrefixOf (c :: rest) || containsSub needle rest

/-- Python `haystack.find(needle)`: index of the first occurrence, `none`
standing for `-1`. -/
def pyFind (needle : Str) : Str → Option Nat
  | [] => if needle.isEmpty then some 0 else none
  | c :: rest =>
    if needle.isPrefixOf (c :: rest) then some 0
    else (pyFind needle rest).map (· + 1)

/-- Python `haystack.rfind(needle)`: index of the last occurrence, `none`
standing for `-1`. -/
def pyRfind (needle : Str) : Str → Option Nat
  | [] => if needle.isEmpty then some 0 else none
  | c :: rest =>
    match pyRfind needle rest with
    | some i => some (i + 1)
    | none => if needle.isPrefixOf (c :: rest) then some 0 else none

/-- `sep.join(xs)`. -/
def joinSep (sep : Str) : List Str → Str
  | [] => []
  | [x] => x
  | x :: y :: rest => x ++ sep ++ joinSep sep (y :: rest)

/-- `str.split()` with no argument: split on whitespace runs, dropping
empty fields. -/
def splitWs : Str → List Str
  | [] => []
  | c :: rest =>
    if isPyWs c then splitWs rest
    else
      match splitWs rest with
      | [] => [[c]]
      | w :: ws =>
        match rest with
        | [] => [[c]]
        | d :: _ => if isPyWs d then [c] :: w :: ws else (c :: w) :: ws

/-- `str.split(sep)` for a single-character separator (keeps empty fields). -/
def splitChar (sep : Char) : Str → List Str
  | [] => [[]]
  | c :: rest =>
    if c = sep then [] :: splitChar sep rest
    else
      match splitChar sep rest with
      | [] => [[c]]
      | f :: fs => (c :: f) :: fs

/-- Python slice `l[a:b]`. -/
def pySlice (l : Str) (a b : Nat) : Str := (l.take b).drop a

/-- Python extended slice `l[::step]` for a positive step. -/
def takeEvery (step : Nat) (l : List α) : List α :=
  (l.enum.filter (fun p => p.1 % step == 0)).map Prod.snd

example : splitWs (strL "  ab cd  e ") = [strL "ab", strL "cd", strL "e"] := by decide

example : splitChar '\n' (strL "a\n\nb") = [strL "a", [], strL "b"] := by decide

example : pyStrip (strL "  ab ") = strL "ab" := by decide

example : pyRfind (strL ",") (strL "a,b,c") = some 3 := by decide

example : takeEvery 2 [1, 2, 3, 4, 5] = [1, 3, 5] := by decide

example : pyFind (strL "bc") (strL "abcbc") = some 1 := by decide

example : containsSub (strL " - ") (strL "INT. CASTLE - NIGHT") = true := by decide

/-! ## parse_shrek.py — heuristic screenplay parser (screenplay mode) -/

/-- One output record of `parse_shrek_text` (a Python dict with keys
`movie`, `character`, `text`). -/
structure SDRecord where
  movie : Str
  character : Str
  text : Str
deriving DecidableEq, Repr

/-- Python truthiness of `current_char` (`None` and `""` are falsy). -/
def charTruthy : Option Str → Bool
  | none => false
  | some c => !c.isEmpty

/-- `re.sub(r'\s*\(.*\)', '', s)` for a single-line `s` (no newline, as the
input is one stripped line): the single match spans from the first `(`
(extended left over contiguous whitespace) to the last `)`, when the first
`(` precedes the last `)`; nothing matches otherwise, and no second match
can exist because no `)` remains after the removed span. -/
def subParenAll (l : Str) : Str :=
  match pyFind (strL "(") l, pyRfind (strL ")") l with
  | some i, some j =>
    if i < j then
      l.take (i - ((l.take i).reverse.takeWhile isPyWs).length) ++ l.drop (j + 1)
    else l
  | _, _ => l

/-- Parser state of the screenplay loop of `parse_shrek_text`. -/
structure ShrekSt where
  currentChar : Option Str
  currentDialogue : List Str
  out : List SDRecord
deriving DecidableEq, Repr

/-- One iteration of the screenplay-mode line loop of `parse_shrek_text`. -/
def shrekStep (movie : Str) (st : ShrekSt) (line : Str) : ShrekSt :=
  let stripped := pyStrip line
  if stripped = [] then st
  else
    let indent := countLeadingWs line
    if 20 < indent ∧ pyIsUpper stripped = true ∧
        containsSub (strL " - ") stripped = false ∧ stripped.length < 50 then
      let st1 :=
        if charTruthy st.currentChar = true ∧ st.currentDialogue ≠ [] then
          { st with
            out := st.out ++
              [⟨movie, st.currentChar.getD [], joinSep (strL " ") st.currentDialogue⟩],
            currentDialogue := [] }
        else st
      { st1 with currentChar := some (pyStrip (subParenAll stripped)) }
    else if 10 < indent ∧ indent < 35 then
      if stripped.head? = some '(' ∧ stripped.getLast? = some ')' then st
      else if charTruthy st.currentChar = true then
        { st with currentDialogue := st.currentDialogue ++ [stripped] }
      else st
    else st

/-- `parse_shrek_text` (mode `"screenplay"`), with the file read abstracted
to the list of lines `readlines` would return. -/
def parse_shrek_text (movie_title : Str) (lines : List Str) : List SDRecord :=
  let final := lines.foldl (shrekStep movie_title) ⟨none, [], []⟩
  if charTruthy final.currentChar = true ∧ final.currentDialogue ≠ [] then
    final.out ++
      [⟨movie_title, final.currentChar.getD [], joinSep (strL " ") final.currentDialogue⟩]
  else final.out

example : subParenAll (strL "SHREK (V.O.)") = strL "SHREK" := by decide

example : subParenAll (strL "SHREK") = strL "SHREK" := by decide

/-- C9: feeding the heuristic screenplay parser `"SHREK"` at indent 40
followed by `"Once upon a time, there was a princess."` at indent 25
produces exactly the single record ⟨SHREK, Once upon a time, ...⟩, and it is
emitted by the end-of-input flush (the loop itself emits nothing). -/
theorem c9_shrek_two_line_scenario :
    parse_shrek_text (strL "Shrek")
      [List.replicate 40 ' ' ++ strL "SHREK",
       List.replicate 25 ' ' ++ strL "Once upon a time, there was a princess."] =
      [⟨strL "Shrek", strL "SHREK", strL "Once upon a time, there was a princess."⟩] ∧
    ([List.replicate 40 ' ' ++ strL "SHREK",
      List.replicate 25 ' ' ++ strL "Once upon a time, there was a princess."].foldl
        (shrekStep (strL "Shrek")) ⟨none, [], []⟩).out = [] := by
  decide

/-- C6 counterexample: a scene heading `"INT. CASTLE - NIGHT"` indented 25
spaces between two character blocks is absorbed into the first character's
dialogue: the parser emits the heading text inside SHREK's entry instead of
flushing at the heading. -/
theorem c6_counterexample :
    (parse_shrek_text (strL "Shrek")
      [List.replicate 40 ' ' ++ strL "SHREK",
       List.replicate 25 ' ' ++ strL "Hello there.",
       List.replicate 25 ' ' ++ strL "INT. CASTLE - NIGHT",
       List.replicate 40 ' ' ++ strL "DONKEY",
       List.replicate 25 ' ' ++ strL "I like waffles."]).map SDRecord.text =
      [strL "Hello there. INT. CASTLE - NIGHT", strL "I like waffles."] ∧
    containsSub (strL "INT. CASTLE - NIGHT")
      (strL "Hello there. INT. CASTLE - NIGHT") = true := by
  decide

theorem charTruthy_some {n : Str} (h : n ≠ []) : charTruthy (some n) = true := by
  simp [charTruthy, h]

theorem shrekStep_lowIndent (m : Str) (st : ShrekSt) (l : Str)
    (h : countLeadingWs l ≤ 10) : shrekStep m st l = st := by
  have hc : ¬(20 < countLeadingWs l ∧ pyIsUpper (pyStrip l) = true ∧
      containsSub (strL " - ") (pyStrip l) = false ∧ (pyStrip l).length < 50) :=
    fun h2 => absurd h2.1 (by omega)
  have hd : ¬(10 < countLeadingWs l ∧ countLeadingWs l < 35) :=
    fun h2 => absurd h2.1 (by omega)
  by_cases he : pyStrip l = []
  · simp only [shrekStep, if_pos he]
  · simp only [shrekStep, if_neg he, if_neg hc, if_neg hd]

theorem shrekStep_cue (m : Str) (st : ShrekSt) (l : Str)
    (hs : pyStrip l ≠ []) (hi : 20 < countLeadingWs l)
    (hu : pyIsUpper (pyStrip l) = true)
    (hd : containsSub (strL " - ") (pyStrip l) = false)
    (hl : (pyStrip l).length < 50) :
    shrekStep m st l =
      if charTruthy st.currentChar = true ∧ st.currentDialogue ≠ [] then
        ⟨some (pyStrip (subParenAll (pyStrip l))), [],
         st.out ++ [⟨m, st.currentChar.getD [], joinSep (strL " ") st.currentDialogue⟩]⟩
      else ⟨some (pyStrip (subParenAll (pyStrip l))), st.currentDialogue, st.out⟩ := by
  simp only [shrekStep, if_neg hs, if_pos (And.intro hi (And.intro hu (And.intro hd hl)))]
  by_cases hf : charTruthy st.currentChar = true ∧ st.currentDialogue ≠ []
  · simp only [if_pos hf]
  · simp only [if_neg hf]

theorem shrekStep_dial (m : Str) (st : ShrekSt) (l : Str)
    (hs : pyStrip l ≠ []) (hi1 : 10 < countLeadingWs l) (hi2 : countLeadingWs l < 35)
    (hu : pyIsUpper (pyStrip l) = false)
    (hp : (pyStrip l).head? ≠ some '(')
    (hch : charTruthy st.currentChar = true) :
    shrekStep m st l = ⟨st.currentChar, st.currentDialogue ++ [pyStrip l], st.out⟩ := by
  have hc : ¬(20 < countLeadingWs l ∧ pyIsUpper (pyStrip l) = true ∧
      containsSub (strL " - ") (pyStrip l) = false ∧ (pyStrip l).length < 50) :=
    fun h2 => by rw [hu] at h2; exact absurd h2.2.1 (by simp)
  have hq : ¬((pyStrip l).head? = some '(' ∧ (pyStrip l).getLast? = some ')') :=
    fun h2 => hp h2.1
  simp only [shrekStep, if_neg hs, if_neg hc, if_pos (And.intro hi1 hi2), if_neg hq,
    if_pos hch]

/-- C6 amended: a scene heading indented at most 10 spaces between two
character blocks is ignored by the parser (no flush and no state reset at
the heading itself); the first block is flushed when the second character
cue arrives, so the two blocks still yield exactly two separate entries
with no cross-contamination.  (A heading indented 11-34 spaces is instead
absorbed into the previous speaker's dialogue, per the counterexample.) -/
theorem c6_amended (m l1 l2 l3 l4 l5 : Str)
    (h1s : pyStrip l1 ≠ []) (h1i : 20 < countLeadingWs l1)
    (h1u : pyIsUpper (pyStrip l1) = true)
    (h1d : containsSub (strL " - ") (pyStrip l1) = false)
    (h1l : (pyStrip l1).length < 50)
    (h1c : pyStrip (subParenAll (pyStrip l1)) ≠ [])
    (h2s : pyStrip l2 ≠ []) (h2i1 : 10 < countLeadingWs l2)
    (h2i2 : countLeadingWs l2 < 35)
    (h2u : pyIsUpper (pyStrip l2) = false)
    (h2p : (pyStrip l2).head? ≠ some '(')
    (h3 : countLeadingWs l3 ≤ 10)
    (h4s : pyStrip l4 ≠ []) (h4i : 20 < countLeadingWs l4)
    (h4u : pyIsUpper (pyStrip l4) = true)
    (h4d : containsSub (strL " - ") (pyStrip l4) = false)
    (h4l : (pyStrip l4).length < 50)
    (h4c : pyStrip (subParenAll (pyStrip l4)) ≠ [])
    (h5s : pyStrip l5 ≠ []) (h5i1 : 10 < countLeadingWs l5)
    (h5i2 : countLeadingWs l5 < 35)
    (h5u : pyIsUpper (pyStrip l5) = false)
    (h5p : (pyStrip l5).head? ≠ some '(') :
    parse_shrek_text m [l1, l2, l3, l4, l5] =
      [⟨m, pyStrip (subParenAll (pyStrip l1)), pyStrip l2⟩,
       ⟨m, pyStrip (subParenAll (pyStrip l4)), pyStrip l5⟩] := by
  have e1 : shrekStep m ⟨none, [], []⟩ l1 =
      ⟨some (pyStrip (subParenAll (pyStrip l1))), [], []⟩ := by
    rw [shrekStep_cue m _ l1 h1s h1i h1u h1d h1l]
    simp [charTruthy]
  have e2 : shrekStep m ⟨some (pyStrip (subParenAll (pyStrip l1))), [], []⟩ l2 =
      ⟨some (pyStrip (subParenAll (pyStrip l1))), [pyStrip l2], []⟩ := by
    rw [shrekStep_dial m _ l2 h2s h2i1 h2i2 h2u h2p (charTruthy_some h1c)]
    rfl
  have e3 : shrekStep m ⟨some (pyStrip (subParenAll (pyStrip l1))), [pyStrip l2], []⟩ l3 =
      ⟨some (pyStrip (subParenAll (pyStrip l1))), [pyStrip l2], []⟩ :=
    shrekStep_lowIndent m _ l3 h3
  have e4 : shrekStep m ⟨some (pyStrip (subParenAll (pyStrip l1))), [pyStrip l2], []⟩ l4 =
      ⟨some (pyStrip (subParenAll (pyStrip l4))), [],
       [⟨m, pyStrip (subParenAll (pyStrip l1)), pyStrip l2⟩]⟩ := by
    rw [shrekStep_cue m _ l4 h4s h4i h4u h4d h4l]
    rw [if_pos (And.intro (charTruthy_some h1c) (by simp))]
    rfl
  have e5 : shrekStep m ⟨some (pyStrip (subParenAll (pyStrip l4))), [],
      [⟨m, pyStrip (subParenAll (pyStrip l1)), pyStrip l2⟩]⟩ l5 =
      ⟨some (pyStrip (subParenAll (pyStrip l4))), [pyStrip l5],
       [⟨m, pyStrip (subParenAll (pyStrip l1)), pyStrip l2⟩]⟩ := by
    rw [shrekStep_dial m _ l5 h5s h5i1 h5i2 h5u h5p (charTruthy_some h4c)]
    rfl
  simp only [parse_shrek_text, List.foldl, e1, e2, e3, e4, e5]
  rw [if_pos (And.intro (charTruthy_some h4c) (by simp))]
  rfl

/-- Witness for `c6_amended` at a concrete five-line scenario. -/
theorem c6_amended_witness :
    parse_shrek_text (strL "Shrek")
      [List.replicate 40 ' ' ++ strL "SHREK",
       List.replicate 25 ' ' ++ strL "Hello there.",
       List.replicate 5 ' ' ++ strL "INT. CASTLE - NIGHT",
       List.replicate 40 ' ' ++ strL "DONKEY",
       List.replicate 25 ' ' ++ strL "I like waffles."] =
      [⟨strL "Shrek", strL "SHREK", strL "Hello there."⟩,
       ⟨strL "Shrek", strL "DONKEY", strL "I like waffles."⟩] := by
  have h := c6_amended (strL "Shrek")
    (List.replicate 40 ' ' ++ strL "SHREK")
    (List.replicate 25 ' ' ++ strL "Hello there.")
    (List.replicate 5 ' ' ++ strL "INT. CASTLE - NIGHT")
    (List.replicate 40 ' ' ++ strL "DONKEY")
    (List.replicate 25 ' ' ++ strL "I like waffles.")
    (by decide) (by decide) (by decide) (by decide) (by decide) (by decide)
    (by decide) (by decide) (by decide) (by decide) (by decide) (by decide)
    (by decide) (by decide) (by decide) (by decide) (by decide) (by decide)
    (by decide) (by decide) (by decide) (by decide) (by decide)
  rw [h]
  decide

/-! ## parser/src/extractors/direct.py — garbage-refusing PDF text extraction

The PyMuPDF page iteration is abstracted to the list of per-page text
strings it would produce; everything from there on is translated from
`_extract_generic`, `_has_garbage_text` and `extract_direct`. -/

def MIN_TEXT_CHARS_PER_PAGE : Nat := 100

/-- One iteration of the line-classification loop of `_has_garbage_text`:
state is `(garbage_lines, checked_lines)`.  `alpha_count / len < 0.3` is
written `10 * alpha_count < 3 * len` (exact for the double `0.3`, which is
below `3/10` by far less than the gap `1/(10*len)` at any feasible length);
`re.match(r'^[\W\d_\s]{3,}$', line)` says: length at least 3 and no
alphabetic character (the class is the complement of the letters). -/
def garbageLineStep (gc : Nat × Nat) (line : Str) : Nat × Nat :=
  let l := pyStrip line
  if l = [] then gc
  else
    let checked := gc.2 + 1
    let alpha := (l.filter isAsciiAlpha).length
    if 3 < l.length ∧ 10 * alpha < 3 * l.length then (gc.1 + 1, checked)
    else if 3 ≤ l.length ∧ l.all (fun ch => !isAsciiAlpha ch) then (gc.1 + 1, checked)
    else (gc.1, checked)

/-- `_has_garbage_text`: classify the first 50 lines of the first 3000
characters; `ratio > MAX_GARBAGE_RATIO` (`0.2`) is written
`5 * garbage > checked` (exact for the double `0.2`). -/
def _has_garbage_text (text : Str) : Bool :=
  let lines := splitChar '\n' (text.take 3000)
  let gc := (lines.take 50).foldl garbageLineStep (0, 0)
  if gc.2 = 0 then true else decide (5 * gc.1 > gc.2)

/-- `_extract_generic`, from the per-page extracted texts on. -/
def _extract_generic (pages : List Str) (preserve_layout : Bool) : Option Str :=
  let pages_with_text :=
    (pages.filter (fun p => MIN_TEXT_CHARS_PER_PAGE ≤ (pyStrip p).length)).length
  if pages_with_text = 0 then none
  else
    let combined := joinSep (strL "\n\n") pages
    if (pyStrip combined).length < MIN_TEXT_CHARS_PER_PAGE * 2 then none
    else if preserve_layout = true ∧ _has_garbage_text combined = true then none
    else some combined

/-- `extract_direct`. -/
def extract_direct (pages : List Str) : Option Str := _extract_generic pages true

/-- A synthetic page of repeated high-entropy symbol runs. -/
def symbolPage : Str := joinSep (strL "\n") (List.replicate 20 (strL "%#@$%#@$%#@$&*!?"))

/-- A synthetic page of ordinary prose. -/
def prosePage : Str :=
  joinSep (strL "\n") (List.replicate 10 (strL "the quick brown fox jumps over the lazy dog"))

/-- C7: the direct PDF extractor refuses to return garbage: it returns
`none` whenever no page reaches the minimum character threshold, and
whenever the sampled-line garbage classification exceeds the 20% ratio
(that is, whenever `_has_garbage_text` holds of the combined text); a page
of repeated high-entropy symbol runs yields `none` while a page of
ordinary prose of sufficient length yields the text. -/
theorem c7_extract_direct_refuses_garbage (pages : List Str) :
    ((pages.filter (fun p => MIN_TEXT_CHARS_PER_PAGE ≤ (pyStrip p).length)).length = 0 →
      extract_direct pages = none) ∧
    (_has_garbage_text (joinSep (strL "\n\n") pages) = true →
      extract_direct pages = none) ∧
    extract_direct [symbolPage] = none ∧
    extract_direct [prosePage] = some prosePage := by
  refine ⟨?_, ?_, by decide, by decide⟩
  · intro h
    simp only [extract_direct, _extract_generic, h]
    rfl
  · intro h
    simp only [extract_direct, _extract_generic]
    by_cases h0 :
        (pages.filter (fun p => MIN_TEXT_CHARS_PER_PAGE ≤ (pyStrip p).length)).length = 0
    · rw [if_pos h0]
    · rw [if_neg h0]
      by_cases h1 :
          (pyStrip (joinSep (strL "\n\n") pages)).length < MIN_TEXT_CHARS_PER_PAGE * 2
      · rw [if_pos h1]
      · rw [if_neg h1, if_pos (And.intro trivial h)]

/-- Witness for `c7_extract_direct_refuses_garbage`: the no-page-reaches-
threshold hypothesis discharged at a concrete input. -/
theorem c7_witness : extract_direct [strL "too short"] = none :=
  (c7_extract_direct_refuses_garbage [strL "too short"]).1 (by decide)

/-! ## parser/src/parsers/gemini_client.py — rate-limit retry with backoff

The network call is abstracted to an oracle giving the outcome of the
`i`-th `generate_content` call: either a response text or the string of the
raised exception.  `GeminiClient.generate` is the retry loop around it. -/

def MAX_RETRIES : Nat := 5

def INITIAL_BACKOFF : Nat := 60

def MAX_BACKOFF : Nat := 300

/-- `"429" in error_str or "Resource exhausted" in error_str`. -/
def isRateLimitErr (e : Str) : Bool :=
  containsSub (strL "429") e || containsSub (strL "Resource exhausted") e

/-- Observable outcome of `GeminiClient.generate`: the returned text or the
re-raised exception, together with how many calls were made and which
backoff sleeps were performed. -/
inductive GenResult where
  | ok (v : Str) (attemptsMade : Nat) (sleeps : List Nat)
  | raised (e : Str) (attemptsMade : Nat) (sleeps : List Nat)
deriving DecidableEq, Repr

/-- The `for attempt in range(MAX_RETRIES)` loop of `GeminiClient.generate`;
`fuel` is the number of attempts remaining (the `fuel = 0` branch is
unreachable: the final attempt either returns or raises). -/
def generateGo (oracle : Nat → Except Str Str) :
    Nat → Nat → Nat → List Nat → GenResult
  | 0, attempt, _, sleeps => .raised [] attempt sleeps
  | fuel + 1, attempt, backoff, sleeps =>
    match oracle attempt with
    | .ok v => .ok v (attempt + 1) sleeps
    | .error e =>
      if isRateLimitErr e = true ∧ attempt < MAX_RETRIES - 1 then
        generateGo oracle fuel (attempt + 1) (min (backoff * 2) MAX_BACKOFF)
          (sleeps ++ [backoff])
      else .raised e (attempt + 1) sleeps

/-- `GeminiClient.generate`, over the call-outcome oracle. -/
def GeminiClient.generate (oracle : Nat → Except Str Str) : GenResult :=
  generateGo oracle MAX_RETRIES 0 INITIAL_BACKOFF []

/-- The first `i` call outcomes are all rate-limited failures. -/
def prefixRL (oracle : Nat → Except Str Str) (i : Nat) : Prop :=
  ∀ j, j < i → ∃ e, oracle j = .error e ∧ isRateLimitErr e = true

/-- C8: `GeminiClient.generate` retries a call only on a rate-limit signal
(`"429"`/`"Resource exhausted"` in the exception text), sleeping 60s then
doubling up to the 300s cap, for at most 5 attempts: after `i` rate-limited
failures a success returns at attempt `i+1` having slept the first `i`
backoffs `[60, 120, 240, 300]`; a non-rate-limit exception is re-raised
immediately with no further attempt; a rate-limited failure on the fifth
attempt is re-raised rather than retried. -/
theorem c8_gemini_retry_policy (oracle : Nat → Except Str Str) :
    (∀ i v, i < MAX_RETRIES → prefixRL oracle i → oracle i = .ok v →
      GeminiClient.generate oracle = .ok v (i + 1) (List.take i [60, 120, 240, 300])) ∧
    (∀ i e, i < MAX_RETRIES → prefixRL oracle i → oracle i = .error e →
      isRateLimitErr e = false →
      GeminiClient.generate oracle = .raised e (i + 1) (List.take i [60, 120, 240, 300])) ∧
    (∀ e, prefixRL oracle 4 → oracle 4 = .error e → isRateLimitErr e = true →
      GeminiClient.generate oracle = .raised e 5 [60, 120, 240, 300]) := by
  have step : ∀ fuel attempt backoff sleeps e, attempt < 4 →
      oracle attempt = .error e → isRateLimitErr e = true →
      generateGo oracle (fuel + 1) attempt backoff sleeps =
        generateGo oracle fuel (attempt + 1) (min (backoff * 2) MAX_BACKOFF)
          (sleeps ++ [backoff]) := by
    intro fuel attempt backoff sleeps e ha he hrl
    simp [generateGo, he, hrl, MAX_RETRIES, ha]
  refine ⟨?_, ?_, ?_⟩
  · intro i v hi hpre hoi
    have hi5 : i < 5 := hi
    clear hi
    interval_cases i <;>
      [skip;
       obtain ⟨e0, he0, hr0⟩ := hpre 0 (by omega);
       obtain ⟨e0, he0, hr0⟩ := hpre 0 (by omega);
       obtain ⟨e0, he0, hr0⟩ := hpre 0 (by omega);
       obtain ⟨e0, he0, hr0⟩ := hpre 0 (by omega)] <;>
      [skip; skip;
       obtain ⟨e1, he1, hr1⟩ := hpre 1 (by omega);
       obtain ⟨e1, he1, hr1⟩ := hpre 1 (by omega);
       obtain ⟨e1, he1, hr1⟩ := hpre 1 (by omega)] <;>
      [skip; skip; skip;
       obtain ⟨e2, he2, hr2⟩ := hpre 2 (by omega);
       obtain ⟨e2, he2, hr2⟩ := hpre 2 (by omega)] <;>
      [skip; skip; skip; skip;
       obtain ⟨e3, he3, hr3⟩ := hpre 3 (by omega)] <;>
      simp only [GeminiClient.generate, MAX_RETRIES, INITIAL_BACKOFF] <;>
      (try rw [step 4 0 60 [] _ (by omega) he0 hr0]) <;>
      (try rw [step 3 1 _ _ _ (by omega) he1 hr1]) <;>
      (try rw [step 2 2 _ _ _ (by omega) he2 hr2]) <;>
      (try rw [step 1 3 _ _ _ (by omega) he3 hr3]) <;>
      simp [generateGo, hoi] <;> decide
  · intro i e hi hpre hoi hnrl
    have hi5 : i < 5 := hi
    clear hi
    interval_cases i <;>
      [skip;
       obtain ⟨e0, he0, hr0⟩ := hpre 0 (by omega);
       obtain ⟨e0, he0, hr0⟩ := hpre 0 (by omega);
       obtain ⟨e0, he0, hr0⟩ := hpre 0 (by omega);
       obtain ⟨e0, he0, hr0⟩ := hpre 0 (by omega)] <;>
      [skip; skip;
       obtain ⟨e1, he1, hr1⟩ := hpre 1 (by omega);
       obtain ⟨e1, he1, hr1⟩ := hpre 1 (by omega);
       obtain ⟨e1, he1, hr1⟩ := hpre 1 (by omega)] <;>
      [skip; skip; skip;
       obtain ⟨e2, he2, hr2⟩ := hpre 2 (by omega);
       obtain ⟨e2, he2, hr2⟩ := hpre 2 (by omega)] <;>
      [skip; skip; skip; skip;
       obtain ⟨e3, he3, hr3⟩ := hpre 3 (by omega)] <;>
      simp only [GeminiClient.generate, MAX_RETRIES, INITIAL_BACKOFF] <;>
      (try rw [step 4 0 60 [] _ (by omega) he0 hr0]) <;>
      (try rw [step 3 1 _ _ _ (by omega) he1 hr1]) <;>
      (try rw [step 2 2 _ _ _ (by omega) he2 hr2]) <;>
      (try rw [step 1 3 _ _ _ (by omega) he3 hr3]) <;>
      simp [generateGo, hoi, hnrl] <;> decide
  · intro e hpre hoi hrl
    obtain ⟨e0, he0, hr0⟩ := hpre 0 (by omega)
    obtain ⟨e1, he1, hr1⟩ := hpre 1 (by omega)
    obtain ⟨e2, he2, hr2⟩ := hpre 2 (by omega)
    obtain ⟨e3, he3, hr3⟩ := hpre 3 (by omega)
    simp only [GeminiClient.generate, MAX_RETRIES, INITIAL_BACKOFF]
    rw [step 4 0 60 [] _ (by omega) he0 hr0]
    rw [step 3 1 _ _ _ (by omega) he1 hr1]
    rw [step 2 2 _ _ _ (by omega) he2 hr2]
    rw [step 1 3 _ _ _ (by omega) he3 hr3]
    simp [generateGo, hoi, hrl, MAX_RETRIES]
    decide

/-- A concrete call oracle: the first call is rate-limited, the second
succeeds. -/
def c8Oracle : Nat → Except Str Str :=
  fun n => if n = 0 then .error (strL "HTTP 429 quota exceeded") else .ok (strL "done")

/-- Witness for `c8_gemini_retry_policy`: one rate-limited failure, one
sleep of 60s, then success on the second attempt. -/
theorem c8_witness :
    GeminiClient.generate c8Oracle = .ok (strL "done") 2 [60] :=
  (c8_gemini_retry_policy c8Oracle).1 1 (strL "done") (by decide)
    (fun j hj => by
      interval_cases j
      exact ⟨strL "HTTP 429 quota exceeded", rfl, by decide⟩)
    rfl

/-! ## llm_text.py `_slugify` and helpers -/

/-- `re.sub(p+, r, l)` for a single-character class `p`: replace each
maximal run of `p`-characters by the single character `r`.  The flag says
whether we are inside a run. -/
def collapseRunsAux (p : Char → Bool) (r : Char) : Bool → Str → Str
  | _, [] => []
  | inRun, c :: rest =>
    if p c then
      if inRun then collapseRunsAux p r true rest
      else r :: collapseRunsAux p r true rest
    else c :: collapseRunsAux p r false rest

def collapseRuns (p : Char → Bool) (r : Char) (l : Str) : Str :=
  collapseRunsAux p r false l

/-- `str.strip('-')` and friends: strip the given character from both ends. -/
def stripChar (r : Char) (l : Str) : Str :=
  ((l.dropWhile (· = r)).reverse.dropWhile (· = r)).reverse

/-- `_slugify`: lower-case, turn `[\s_]+` runs into `-`, delete everything
outside `[a-z0-9-]`, collapse `-+` runs, strip `-` from the ends.  (The
`lower()` step is modelled on ASCII; any non-ASCII residue is deleted by
the `[^a-z0-9-]` filter just as in the source.) -/
def _slugify (text : Str) : Str :=
  let t1 := text.map asciiLower
  let t2 := collapseRuns (fun c => isPyWs c || c = '_') '-' t1
  let t3 := t2.filter (fun c => isAsciiLower c || isAsciiDigit c || c = '-')
  let t4 := collapseRuns (fun c => c = '-') '-' t3
  stripChar '-' t4

example : _slugify (strL "  The LORD_of the--Rings! (2001) ") =
    strL "the-lord-of-the-rings-2001" := by decide

/-- The shape every slug has: only `[a-z0-9-]`, no two adjacent hyphens,
no hyphen at either end. -/
def slugOk (l : Str) : Prop :=
  (∀ c ∈ l, isAsciiLower c = true ∨ isAsciiDigit c = true ∨ c = '-') ∧
  List.Chain' (fun a b => ¬(a = '-' ∧ b = '-')) l ∧
  l.head? ≠ some '-' ∧ l.getLast? ≠ some '-'

theorem collapseRunsAux_mem {p : Char → Bool} {r : Char} {b : Bool} {l : Str}
    {c : Char} (h : c ∈ collapseRunsAux p r b l) : c = r ∨ c ∈ l := by
  induction l generalizing b with
  | nil => simp [collapseRunsAux] at h
  | cons d rest ih =>
    by_cases hd : p d
    · cases b with
      | true =>
        simp only [collapseRunsAux, if_pos hd] at h
        rcases ih h with h1 | h1
        · exact Or.inl h1
        · exact Or.inr (List.mem_cons_of_mem _ h1)
      | false =>
        simp only [collapseRunsAux, if_pos hd, Bool.false_eq_true, if_false,
          List.mem_cons] at h
        rcases h with h1 | h1
        · exact Or.inl h1
        · rcases ih h1 with h2 | h2
          · exact Or.inl h2
          · exact Or.inr (List.mem_cons_of_mem _ h2)
    · simp only [collapseRunsAux, if_neg hd, List.mem_cons] at h
      rcases h with h1 | h1
      · exact Or.inr (h1 ▸ List.mem_cons_self _ _)
      · rcases ih h1 with h2 | h2
        · exact Or.inl h2
        · exact Or.inr (List.mem_cons_of_mem _ h2)

/-- After entering a run, the produced tail never starts with a
`p`-character. -/
theorem collapseRunsAux_head_true {p : Char → Bool} {r : Char} {l : Str}
    {x : Char} (h : (collapseRunsAux p r true l).head? = some x) : p x = false := by
  induction l with
  | nil => simp [collapseRunsAux] at h
  | cons d rest ih =>
    by_cases hd : p d
    · simp only [collapseRunsAux, if_pos hd] at h
      exact ih h
    · simp only [collapseRunsAux, if_neg hd, List.head?_cons, Option.some.injEq] at h
      rw [← h]
      exact Bool.not_eq_true _ ▸ (by simpa using hd)

theorem collapseRunsAux_chain {p : Char → Bool} {r : Char} (b : Bool) (l : Str) :
    List.Chain' (fun a c => ¬(p a = true ∧ p c = true)) (collapseRunsAux p r b l) := by
  induction l generalizing b with
  | nil => simp [collapseRunsAux]
  | cons d rest ih =>
    by_cases hd : p d
    · cases b with
      | true => simpa only [collapseRunsAux, if_pos hd] using ih true
      | false =>
        simp only [collapseRunsAux, if_pos hd]
        refine List.chain'_cons'.mpr ⟨?_, ih true⟩
        intro y hy h2
        have := collapseRunsAux_head_true (p := p) (r := r) (l := rest) hy
        rw [this] at h2
        exact absurd h2.2 (by simp)
    · simp only [collapseRunsAux, if_neg hd]
      refine List.chain'_cons'.mpr ⟨?_, ih false⟩
      intro y hy h2
      exact absurd h2.1 (by simpa using hd)

theorem dropWhile_head_not {p : Char → Bool} {l : Str} {x : Char}
    (h : (l.dropWhile p).head? = some x) : p x = false := by
  induction l with
  | nil => simp [List.dropWhile] at h
  | cons d rest ih =>
    by_cases hd : p d
    · rw [List.dropWhile_cons_of_pos hd] at h
      exact ih h
    · rw [List.dropWhile_cons_of_neg hd] at h
      simp only [List.head?_cons, Option.some.injEq] at h
      rw [← h]
      exact Bool.not_eq_true _ ▸ (by simpa using hd)

theorem stripChar_within (r : Char) (l : Str) : stripChar r l <:+: l := by
  have h1 : (l.dropWhile (· = r)) <:+ l := List.dropWhile_suffix _
  have h2 : stripChar r l <+: l.dropWhile (· = r) := by
    unfold stripChar
    refine ⟨((l.dropWhile (· = r)).reverse.takeWhile (· = r)).reverse, ?_⟩
    rw [← List.reverse_append, List.takeWhile_append_dropWhile, List.reverse_reverse]
  exact List.IsInfix.trans (List.IsPrefix.isInfix h2) (List.IsSuffix.isInfix h1)

theorem stripChar_head {r : Char} {l : Str} {x : Char}
    (h : (stripChar r l).head? = some x) : (x = r) = False := by
  have hne : stripChar r l ≠ [] := by
    intro he
    rw [he] at h
    simp at h
  have hpre : stripChar r l <+: l.dropWhile (· = r) := by
    unfold stripChar
    refine ⟨((l.dropWhile (· = r)).reverse.takeWhile (· = r)).reverse, ?_⟩
    rw [← List.reverse_append, List.takeWhile_append_dropWhile, List.reverse_reverse]
  obtain ⟨t, ht⟩ := hpre
  have hh : (l.dropWhile (· = r)).head? = some x := by
    rw [← ht, List.head?_append, h]
    rfl
  have := dropWhile_head_not (p := (fun c => decide (c = r))) (l := l) (by simpa using hh)
  simpa using this

theorem stripChar_last {r : Char} {l : Str} {x : Char}
    (h : (stripChar r l).getLast? = some x) : (x = r) = False := by
  unfold stripChar at h
  rw [List.getLast?_reverse] at h
  have := dropWhile_head_not (p := (fun c => decide (c = r)))
    (l := (l.dropWhile (· = r)).reverse) (by simpa using h)
  simpa using this

/-- Helper: every slug satisfies the shape. -/
theorem slugify_ok (s : Str) : slugOk (_slugify s) := by
  refine ⟨?_, ?_, ?_, ?_⟩
  · intro c hc
    have h1 := (stripChar_within '-' _).subset hc
    rcases collapseRunsAux_mem h1 with h2 | h2
    · exact Or.inr (Or.inr h2)
    · have h3 := List.mem_filter.mp h2
      rcases Bool.or_eq_true_iff.mp h3.2 with h4 | h4
      · rcases Bool.or_eq_true_iff.mp h4 with h5 | h5
        · exact Or.inl h5
        · exact Or.inr (Or.inl h5)
      · exact Or.inr (Or.inr (by simpa using h4))
  · have hch := collapseRunsAux_chain (p := fun c => decide (c = '-')) (r := '-') false
      ((collapseRuns (fun c => isPyWs c || c = '_') '-' ((s.map asciiLower))).filter
        (fun c => isAsciiLower c || isAsciiDigit c || c = '-'))
    have hinf := stripChar_within '-' (collapseRuns (fun c => decide (c = '-')) '-'
      ((collapseRuns (fun c => isPyWs c || c = '_') '-' ((s.map asciiLower))).filter
        (fun c => isAsciiLower c || isAsciiDigit c || c = '-')))
    have hch2 := List.Chain'.infix hch hinf
    refine List.Chain'.imp ?_ hch2
    intro a b hab h2
    exact hab (by simp [h2.1, h2.2])
  · intro h
    have := stripChar_head (r := '-') (l := _) h
    simp at this
  · intro h
    have := stripChar_last (r := '-') (l := _) h
    simp at this

/-! ## parser/src/utils/text_cleaning.py

Each regex substitution of the Text Normalizer is hand-compiled into a
fuel-driven scanner with `re.sub` semantics: scan left to right, replace
non-overlapping matches, continue scanning right after each match (word
boundaries and look-behinds read the original text, tracked by the `prev`
character).  Fuel `length + 1` always suffices: every step consumes at
least one character. -/

/-- Case-insensitive literal prefix match (`re.IGNORECASE`, ASCII). -/
def ciPrefix : Str → Str → Bool
  | [], _ => true
  | _ :: _, [] => false
  | pc :: pr, tc :: tr => asciiLower pc == asciiLower tc && ciPrefix pr tr

/-- `\b` before a match: start of string or a non-word character. -/
def boundaryOk : Option Char → Bool
  | none => true
  | some c => !isWordChar c

/-- `\b` after a match: end of string or a non-word character next. -/
def endBoundary (l : Str) : Bool :=
  match l.head? with
  | none => true
  | some c => !isWordChar c

/-- `re.sub(r'<<\s*|\s*>>', '', ...)`: at each position first try
`<<\s*` (greedy), then `\s*>>` (the whitespace run must be directly
followed by `>>`). -/
def transMarkersGo : Nat → Str → Str
  | 0, l => l
  | _ + 1, [] => []
  | fuel + 1, c :: rest =>
    if c = '<' ∧ rest.head? = some '<' then
      transMarkersGo fuel ((rest.drop 1).dropWhile isPyWs)
    else
      let wsn := countLeadingWs (c :: rest)
      let after := (c :: rest).drop wsn
      if after.head? = some '>' ∧ (after.drop 1).head? = some '>' then
        transMarkersGo fuel (after.drop 2)
      else c :: transMarkersGo fuel rest

/-- `remove_translation_markers`. -/
def remove_translation_markers (text : Str) : Str :=
  pyStrip (transMarkersGo (text.length + 1) text)

/-- One entry of `OCR_CORRECTIONS`: the first group pattern
`\b([A-Z])'11\b` (IGNORECASE), a literal word with boundaries
(IGNORECASE), or a look-around digit fix `(?<=lo)d(?=lo)`. -/
inductive OcrPat where
  | letterAp11
  | word (w : Str) (rep : Str)
  | between (lo : Char → Bool) (d : Char) (rep : Char)

/-- Scanner for `\b([A-Z])'11\b` → `\1'll` (IGNORECASE turns `[A-Z]` into
any ASCII letter). -/
def subL11Go : Nat → Option Char → Str → Str
  | 0, _, l => l
  | _ + 1, _, [] => []
  | fuel + 1, prev, c :: rest =>
    match rest with
    | c2 :: c3 :: c4 :: rest2 =>
      if boundaryOk prev = true ∧ isAsciiAlpha c = true ∧ c2 = '\'' ∧ c3 = '1' ∧
          c4 = '1' ∧ endBoundary rest2 = true then
        c :: '\'' :: 'l' :: 'l' :: subL11Go fuel (some '1') rest2
      else c :: subL11Go fuel (some c) rest
    | _ => c :: subL11Go fuel (some c) rest

/-- Scanner for `\bw\b` (IGNORECASE) → `rep`. -/
def subWordGo (w rep : Str) : Nat → Option Char → Str → Str
  | 0, _, l => l
  | _ + 1, _, [] => []
  | fuel + 1, prev, c :: rest =>
    if boundaryOk prev = true ∧ ciPrefix w (c :: rest) = true ∧
        endBoundary ((c :: rest).drop w.length) = true then
      rep ++ subWordGo w rep fuel (some (((c :: rest).take w.length).getLastD c))
        ((c :: rest).drop w.length)
    else c :: subWordGo w rep fuel (some c) rest

/-- Scanner for `(?<=lo)d(?=lo)` → `rep` (look-around characters are not
consumed; the look-behind reads the original text). -/
def subBetweenGo (lo : Char → Bool) (d rep : Char) : Nat → Option Char → Str → Str
  | 0, _, l => l
  | _ + 1, _, [] => []
  | fuel + 1, prev, c :: rest =>
    if c = d ∧ (match prev with | some p => lo p | none => false) = true ∧
        (match rest.head? with | some n => lo n | none => false) = true then
      rep :: subBetweenGo lo d rep fuel (some c) rest
    else c :: subBetweenGo lo d rep fuel (some c) rest

/-- The `OCR_CORRECTIONS` table, in source order. -/
def ocrTable : List OcrPat :=
  [.letterAp11,
   .word (strL "I'11") (strL "I'll"), .word (strL "he'11") (strL "he'll"),
   .word (strL "she'11") (strL "she'll"), .word (strL "we'11") (strL "we'll"),
   .word (strL "they'11") (strL "they'll"), .word (strL "you'11") (strL "you'll"),
   .word (strL "it'11") (strL "it'll"), .word (strL "that'11") (strL "that'll"),
   .word (strL "who'11") (strL "who'll"), .word (strL "what'11") (strL "what'll"),
   .word (strL "won'1") (strL "won't"), .word (strL "can'1") (strL "can't"),
   .word (strL "don'1") (strL "don't"), .word (strL "doesn'1") (strL "doesn't"),
   .word (strL "didn'1") (strL "didn't"), .word (strL "wouldn'1") (strL "wouldn't"),
   .word (strL "couldn'1") (strL "couldn't"), .word (strL "shouldn'1") (strL "shouldn't"),
   .word (strL "haven'1") (strL "haven't"), .word (strL "hasn'1") (strL "hasn't"),
   .word (strL "isn'1") (strL "isn't"), .word (strL "aren'1") (strL "aren't"),
   .word (strL "wasn'1") (strL "wasn't"), .word (strL "weren'1") (strL "weren't"),
   .word (strL "tbe") (strL "the"), .word (strL "wbat") (strL "what"),
   .word (strL "wben") (strL "when"), .word (strL "wbere") (strL "where"),
   .word (strL "wby") (strL "why"), .word (strL "wbo") (strL "who"),
   .word (strL "tbat") (strL "that"), .word (strL "tbis") (strL "this"),
   .word (strL "tbey") (strL "they"), .word (strL "tben") (strL "then"),
   .word (strL "tbere") (strL "there"), .word (strL "tbose") (strL "those"),
   .word (strL "tbese") (strL "these"), .word (strL "tbink") (strL "think"),
   .word (strL "tbing") (strL "thing"), .word (strL "tbings") (strL "things"),
   .between isAsciiLower '1' 'l',
   .between isAsciiUpper '0' 'O']

def applyOcrPat (t : Str) : OcrPat → Str
  | .letterAp11 => subL11Go (t.length + 1) none t
  | .word w rep => subWordGo w rep (t.length + 1) none t
  | .between lo d rep => subBetweenGo lo d rep (t.length + 1) none t

/-- `fix_ocr_errors`: apply every `OCR_PATTERNS` substitution in order. -/
def fix_ocr_errors (text : Str) : Str := ocrTable.foldl applyOcrPat text

def digitRunLen (l : Str) : Nat := (l.takeWhile isAsciiDigit).length

/-- The revision-colour words of the first `SCRIPT_ARTIFACTS` pattern, with
`REVISED?` expanded in greedy order. -/
def colorWords : List Str :=
  [strL "YELLOW", strL "BLUE", strL "PINK", strL "GREEN", strL "GOLDENROD",
   strL "BUFF", strL "SALMON", strL "CHERRY", strL "TAN", strL "WHITE",
   strL "REVISED", strL "REVISE"]

/-- Length of a `\s+\d{1,2}/\d{1,2}/\d{2,4}\b` match at the front of `l`
(`none` if there is none).  A bounded digit quantifier followed by `/` (or
by `\b`) matches exactly when the maximal digit run has an admissible
length, since backtracking into a shorter run leaves a digit at the
follow-up position. -/
def dateTailLen (l : Str) : Option Nat :=
  let wsn := countLeadingWs l
  if wsn = 0 then none
  else
    let l1 := l.drop wsn
    let r1 := digitRunLen l1
    if ¬(1 ≤ r1 ∧ r1 ≤ 2) then none
    else if (l1.drop r1).head? ≠ some '/' then none
    else
      let l2 := l1.drop (r1 + 1)
      let r2 := digitRunLen l2
      if ¬(1 ≤ r2 ∧ r2 ≤ 2) then none
      else if (l2.drop r2).head? ≠ some '/' then none
      else
        let l3 := l2.drop (r2 + 1)
        let r3 := digitRunLen l3
        if ¬(2 ≤ r3 ∧ r3 ≤ 4) then none
        else if endBoundary (l3.drop r3) = false then none
        else some (wsn + r1 + 1 + r2 + 1 + r3)

/-- Length of a colour-revision-date match starting at `t` (first pattern
of `SCRIPT_ARTIFACTS`, IGNORECASE), alternatives tried in source order. -/
def colorDateMatchLen (prev : Option Char) (t : Str) : Option Nat :=
  if boundaryOk prev = false then none
  else
    (colorWords.filterMap (fun w =>
      if ciPrefix w t = true then (dateTailLen (t.drop w.length)).map (w.length + ·)
      else none)).head?

def subColorDateGo : Nat → Option Char → Str → Str
  | 0, _, l => l
  | _ + 1, _, [] => []
  | fuel + 1, prev, c :: rest =>
    match colorDateMatchLen prev (c :: rest) with
    | some n => subColorDateGo fuel ((c :: rest).take n).getLast? ((c :: rest).drop n)
    | none => c :: subColorDateGo fuel (some c) rest

/-- `^\s*\d+[A-Z]?\.?\s*$` (second `SCRIPT_ARTIFACTS` pattern): anchored,
so it can only delete the entire text when the whole text has the
page-number shape. -/
def isPageNumLine (l : Str) : Bool :=
  let l1 := l.dropWhile isPyWs
  let r := digitRunLen l1
  if r = 0 then false
  else
    let l2 := l1.drop r
    let l3 := match l2 with
      | u :: tl => if isAsciiUpper u then tl else l2
      | [] => l2
    let l4 := match l3 with
      | '.' :: tl => tl
      | _ => l3
    decide (l4.dropWhile isPyWs = [])

/-- Scanner for `\bPAGE\s+\d+\b` (IGNORECASE), third pattern. -/
def subPageWordGo : Nat → Option Char → Str → Str
  | 0, _, l => l
  | _ + 1, _, [] => []
  | fuel + 1, prev, c :: rest =>
    let t := c :: rest
    let matchLen : Option Nat :=
      if boundaryOk prev = true ∧ ciPrefix (strL "PAGE") t = true then
        let l1 := t.drop 4
        let wsn := countLeadingWs l1
        if wsn = 0 then none
        else
          let l2 := l1.drop wsn
          let r := digitRunLen l2
          if r = 0 then none
          else if endBoundary (l2.drop r) = false then none
          else some (4 + wsn + r)
      else none
    match matchLen with
    | some n => subPageWordGo fuel (t.take n).getLast? (t.drop n)
    | none => c :: subPageWordGo fuel (some c) rest

/-- Does `l` consist entirely of `\s+\d+\s*` (the fourth pattern
`\s+\d+\s*$` matches exactly the suffixes of this shape, and the `$`
newline subtlety is absorbed by the greedy `\s*`)? -/
def tailNumShape (l : Str) : Bool :=
  let w := countLeadingWs l
  if w = 0 then false
  else
    let l1 := l.drop w
    let r := digitRunLen l1
    if r = 0 then false else decide ((l1.drop r).dropWhile isPyWs = [])

/-- Scanner for `\s+\d+\s*$`: delete the leftmost suffix of the trailing
page-number shape. -/
def subTrailingNumGo : Nat → Str → Str
  | 0, l => l
  | _ + 1, [] => []
  | fuel + 1, c :: rest =>
    if tailNumShape (c :: rest) = true then []
    else c :: subTrailingNumGo fuel rest

/-- `remove_script_artifacts`: the four `SCRIPT_ARTIFACTS` substitutions in
order, then `strip()`. -/
def remove_script_artifacts (text : Str) : Str :=
  let t1 := subColorDateGo (text.length + 1) none text
  let t2 := if isPageNumLine t1 = true then [] else t1
  let t3 := subPageWordGo (t2.length + 1) none t2
  let t4 := subTrailingNumGo (t3.length + 1) t3
  pyStrip t4

/-- `clean_text`. -/
def clean_text (text : Str) : Str :=
  pyStrip (remove_script_artifacts (fix_ocr_errors (remove_translation_markers text)))

example : remove_translation_markers (strL "<< hello >>") = strL "hello" := by decide

example : fix_ocr_errors (strL "I'11 see tbe king") = strL "I'll see the king" := by decide

example : remove_script_artifacts (strL "He left. PAGE 12") = strL "He left." := by decide

example : remove_script_artifacts (strL "REVISED 3/15/2024 scene") = strL "scene" := by
  decide

example : remove_script_artifacts (strL "a 1 2") = strL "a 1" := by decide

/-- C3 counterexample: `remove_translation_markers` (hence also
`clean_text`) is not idempotent: deleting `>>` from `"<>><"` glues the two
stray `<` into a fresh `<<` marker that a second pass deletes. -/
theorem c3_counterexample :
    remove_translation_markers (strL "<>><") = strL "<<" ∧
    remove_translation_markers (remove_translation_markers (strL "<>><")) = [] ∧
    remove_translation_markers (remove_translation_markers (strL "<>><")) ≠
      remove_translation_markers (strL "<>><") ∧
    clean_text (clean_text (strL "<>><")) ≠ clean_text (strL "<>><") := by
  decide

/-- The input class on which all cleaning functions are provably
idempotent: no `<`/`>` (translation markers), no digits (every digit-based
pattern), and no `b`/`B` (every OCR misspelling word contains `b`). -/
def cleanSafe (l : Str) : Prop :=
  ∀ c ∈ l, asciiLower c ≠ '<' ∧ asciiLower c ≠ '>' ∧
    isAsciiDigit (asciiLower c) = false ∧ asciiLower c ≠ 'b'

theorem cleanSafe_sub {l t : Str} (h : cleanSafe l) (hsub : t ⊆ l) : cleanSafe t :=
  fun c hc => h c (hsub hc)

instance (l : Str) : Decidable (cleanSafe l) := by
  unfold cleanSafe
  infer_instance

theorem headDropMem {l : Str} {n : Nat} {x : Char}
    (h : (l.drop n).head? = some x) : x ∈ l := by
  have hx : x ∈ l.drop n := by
    cases hd : l.drop n with
    | nil => rw [hd] at h; simp at h
    | cons y t =>
      rw [hd] at h
      simp only [List.head?_cons, Option.some.injEq] at h
      subst h
      exact List.mem_cons_self _ _
  exact List.drop_subset n l hx

theorem dropWhile_eq_self_of_head {p : Char → Bool} {l : Str}
    (h : ∀ x, l.head? = some x → p x = false) : l.dropWhile p = l := by
  cases l with
  | nil => rfl
  | cons c rest =>
    rw [List.dropWhile_cons_of_neg]
    simp [h c rfl]

theorem pyStrip_prefix_dropWhile (l : Str) : pyStrip l <+: l.dropWhile isPyWs := by
  unfold pyStrip
  refine ⟨((l.dropWhile isPyWs).reverse.takeWhile isPyWs).reverse, ?_⟩
  rw [← List.reverse_append, List.takeWhile_append_dropWhile, List.reverse_reverse]

theorem pyStrip_within (l : Str) : pyStrip l <:+: l :=
  List.IsInfix.trans (List.IsPrefix.isInfix (pyStrip_prefix_dropWhile l))
    (List.IsSuffix.isInfix (List.dropWhile_suffix _))

theorem pyStrip_head {l : Str} {x : Char}
    (h : (pyStrip l).head? = some x) : isPyWs x = false := by
  obtain ⟨t, ht⟩ := pyStrip_prefix_dropWhile l
  have hh : (l.dropWhile isPyWs).head? = some x := by
    rw [← ht, List.head?_append, h]
    rfl
  exact dropWhile_head_not hh

theorem pyStrip_last {l : Str} {x : Char}
    (h : (pyStrip l).getLast? = some x) : isPyWs x = false := by
  unfold pyStrip at h
  rw [List.getLast?_reverse] at h
  exact dropWhile_head_not h

theorem pyStrip_idem (l : Str) : pyStrip (pyStrip l) = pyStrip l := by
  conv_lhs => rw [pyStrip]
  rw [dropWhile_eq_self_of_head (fun x hx => pyStrip_head hx)]
  rw [dropWhile_eq_self_of_head (fun x hx => by
    rw [List.head?_reverse] at hx
    exact pyStrip_last hx)]
  exact List.reverse_reverse _

theorem cleanSafe_no_lt {l : Str} (h : cleanSafe l) {c : Char} (hc : c ∈ l) :
    c ≠ '<' := by
  intro he
  exact absurd (by rw [he]; decide : asciiLower c = '<') (h c hc).1

theorem cleanSafe_no_gt {l : Str} (h : cleanSafe l) {c : Char} (hc : c ∈ l) :
    c ≠ '>' := by
  intro he
  exact absurd (by rw [he]; decide : asciiLower c = '>') (h c hc).2.1

theorem cleanSafe_no_digit {l : Str} (h : cleanSafe l) {c : Char} (hc : c ∈ l) :
    isAsciiDigit c = false := by
  by_cases hd : isAsciiDigit c = true
  · have : asciiLower c = c := by
      unfold asciiLower
      rw [if_neg]
      intro hu
      revert hd hu
      unfold isAsciiDigit isAsciiUpper
      intro hd hu
      simp only [Bool.and_eq_true, decide_eq_true_eq] at hd hu
      exact absurd (le_trans hu.1 hd.2) (by decide)
    have h3 := (h c hc).2.2.1
    rw [this, hd] at h3
    exact absurd h3 (by simp)
  · simpa using hd

theorem transMarkersGo_id : ∀ (fuel : Nat) (l : Str), cleanSafe l →
    transMarkersGo fuel l = l := by
  intro fuel
  induction fuel with
  | zero => intro l _; rfl
  | succ f ih =>
    intro l h
    cases l with
    | nil => rfl
    | cons c rest =>
      have hc1 : ¬(c = '<' ∧ rest.head? = some '<') := by
        intro h2
        exact cleanSafe_no_lt h (List.mem_cons_self _ _) h2.1
      have hc2 : ¬(((c :: rest).drop (countLeadingWs (c :: rest))).head? = some '>' ∧
          (((c :: rest).drop (countLeadingWs (c :: rest))).drop 1).head? = some '>') := by
        intro h2
        exact cleanSafe_no_gt h (headDropMem h2.1) rfl
      simp only [transMarkersGo, if_neg hc1, if_neg hc2, List.cons.injEq, true_and]
      exact ih rest (cleanSafe_sub h (fun x hx => List.mem_cons_of_mem _ hx))

/-- On the safe class `remove_translation_markers` is just `strip`. -/
theorem rtm_safe {l : Str} (h : cleanSafe l) :
    remove_translation_markers l = pyStrip l := by
  unfold remove_translation_markers
  rw [transMarkersGo_id _ _ h]

/-- Why each OCR pattern cannot fire on the safe class: it requires a `b`
or a digit in the matched text. -/
def patBad : OcrPat → Prop
  | .letterAp11 => True
  | .word w _ => ∃ pc ∈ w, asciiLower pc = 'b' ∨ isAsciiDigit (asciiLower pc) = true
  | .between _ d _ => isAsciiDigit (asciiLower d) = true

instance : DecidablePred patBad := fun p => by
  cases p <;> dsimp [patBad] <;> infer_instance

theorem ocrTable_bad : ∀ p ∈ ocrTable, patBad p := by decide

theorem ciPrefix_all {w t : Str} (h : ciPrefix w t = true) :
    ∀ pc ∈ w, ∃ tc ∈ t, asciiLower tc = asciiLower pc := by
  induction w generalizing t with
  | nil => intro pc hpc; simp at hpc
  | cons pc0 pr ih =>
    cases t with
    | nil => simp [ciPrefix] at h
    | cons tc0 tr =>
      simp only [ciPrefix, Bool.and_eq_true, beq_iff_eq] at h
      intro pc hpc
      rcases List.mem_cons.mp hpc with h1 | h1
      · exact ⟨tc0, List.mem_cons_self _ _, by rw [h1, h.1]⟩
      · obtain ⟨tc, htc, he⟩ := ih h.2 pc h1
        exact ⟨tc, List.mem_cons_of_mem _ htc, he⟩

theorem cleanSafe_no_ciPrefix {w t : Str} (hw : ∃ pc ∈ w,
      asciiLower pc = 'b' ∨ isAsciiDigit (asciiLower pc) = true)
    (h : cleanSafe t) : ciPrefix w t = false := by
  by_cases hp : ciPrefix w t = true
  · obtain ⟨pc, hpc, hbad⟩ := hw
    obtain ⟨tc, htc, he⟩ := ciPrefix_all hp pc hpc
    rcases hbad with hb | hb
    · exact absurd (he.trans hb) (h tc htc).2.2.2
    · rw [← he] at hb
      rw [(h tc htc).2.2.1] at hb
      exact absurd hb (by simp)
  · simpa using hp

theorem subL11Go_id : ∀ (fuel : Nat) (prev : Option Char) (l : Str), cleanSafe l →
    subL11Go fuel prev l = l := by
  intro fuel
  induction fuel with
  | zero => intro prev l _; rfl
  | succ f ih =>
    intro prev l h
    match l with
    | [] => rfl
    | [c] =>
      simp only [subL11Go]
      rw [ih (some c) [] (fun x hx => absurd hx (List.not_mem_nil x))]
    | [c, c2] =>
      simp only [subL11Go]
      rw [ih (some c) [c2] (cleanSafe_sub h (fun x hx => List.mem_cons_of_mem _ hx))]
    | [c, c2, c3] =>
      simp only [subL11Go]
      rw [ih (some c) [c2, c3] (cleanSafe_sub h (fun x hx => List.mem_cons_of_mem _ hx))]
    | c :: c2 :: c3 :: c4 :: rest2 =>
      have hcond : ¬(boundaryOk prev = true ∧ isAsciiAlpha c = true ∧ c2 = '\'' ∧
          c3 = '1' ∧ c4 = '1' ∧ endBoundary rest2 = true) := by
        intro hc
        have h3 := (h c3 (by simp)).2.2.1
        rw [hc.2.2.2.1] at h3
        exact absurd h3 (by decide)
      simp only [subL11Go, if_neg hcond, List.cons.injEq, true_and]
      exact ih (some c) _ (cleanSafe_sub h (fun x hx => List.mem_cons_of_mem _ hx))

theorem subWordGo_id (w rep : Str)
    (hw : ∃ pc ∈ w, asciiLower pc = 'b' ∨ isAsciiDigit (asciiLower pc) = true) :
    ∀ (fuel : Nat) (prev : Option Char) (l : Str), cleanSafe l →
    subWordGo w rep fuel prev l = l := by
  intro fuel
  induction fuel with
  | zero => intro prev l _; rfl
  | succ f ih =>
    intro prev l h
    cases l with
    | nil => rfl
    | cons c rest =>
      have hcond : ¬(boundaryOk prev = true ∧ ciPrefix w (c :: rest) = true ∧
          endBoundary ((c :: rest).drop w.length) = true) := by
        intro hc
        rw [cleanSafe_no_ciPrefix hw h] at hc
        exact absurd hc.2.1 (by simp)
      simp only [subWordGo, if_neg hcond, List.cons.injEq, true_and]
      exact ih (some c) rest (cleanSafe_sub h (fun x hx => List.mem_cons_of_mem _ hx))

theorem subBetweenGo_id (lo : Char → Bool) (d rep : Char)
    (hd : isAsciiDigit (asciiLower d) = true) :
    ∀ (fuel : Nat) (prev : Option Char) (l : Str), cleanSafe l →
    subBetweenGo lo d rep fuel prev l = l := by
  intro fuel
  induction fuel with
  | zero => intro prev l _; rfl
  | succ f ih =>
    intro prev l h
    cases l with
    | nil => rfl
    | cons c rest =>
      have hcond : ¬(c = d ∧
          (match prev with | some p => lo p | none => false) = true ∧
          (match rest.head? with | some n => lo n | none => false) = true) := by
        intro hc
        have h3 := (h c (List.mem_cons_self _ _)).2.2.1
        rw [hc.1] at h3
        rw [h3] at hd
        exact absurd hd (by simp)
      simp only [subBetweenGo, if_neg hcond, List.cons.injEq, true_and]
      exact ih (some c) rest (cleanSafe_sub h (fun x hx => List.mem_cons_of_mem _ hx))

theorem ocrFold_id : ∀ (ps : List OcrPat), (∀ p ∈ ps, patBad p) →
    ∀ l, cleanSafe l → ps.foldl applyOcrPat l = l := by
  intro ps
  induction ps with
  | nil => intro _ l _; rfl
  | cons p pr ih =>
    intro hb l h
    have happ : applyOcrPat l p = l := by
      cases p with
      | letterAp11 => exact subL11Go_id _ _ _ h
      | word w rep => exact subWordGo_id w rep (hb _ (List.mem_cons_self _ _)) _ _ _ h
      | between lo d rep =>
        exact subBetweenGo_id lo d rep (hb _ (List.mem_cons_self _ _)) _ _ _ h
    rw [List.foldl_cons, happ]
    exact ih (fun q hq => hb q (List.mem_cons_of_mem _ hq)) l h

theorem fix_ocr_errors_id {l : Str} (h : cleanSafe l) : fix_ocr_errors l = l :=
  ocrFold_id ocrTable ocrTable_bad l h

theorem filterMapHead {α β : Type} {f : α → Option β} {l : List α} {y : β}
    (h : (l.filterMap f).head? = some y) : ∃ x ∈ l, f x = some y := by
  have hy : y ∈ l.filterMap f := by
    cases hfm : l.filterMap f with
    | nil => rw [hfm] at h; simp at h
    | cons a t =>
      rw [hfm] at h
      simp only [List.head?_cons, Option.some.injEq] at h
      subst h
      exact List.mem_cons_self _ _
  exact List.mem_filterMap.mp hy

theorem digitRun_pos {l : Str} (h : 0 < digitRunLen l) :
    ∃ tc ∈ l, isAsciiDigit tc = true := by
  cases l with
  | nil => simp [digitRunLen] at h
  | cons c rest =>
    by_cases hc : isAsciiDigit c = true
    · exact ⟨c, List.mem_cons_self _ _, hc⟩
    · rw [digitRunLen, List.takeWhile_cons_of_neg (by simpa using hc)] at h
      simp at h

theorem dateTail_digit {l : Str} {n : Nat} (h : dateTailLen l = some n) :
    ∃ tc ∈ l, isAsciiDigit tc = true := by
  simp only [dateTailLen] at h
  by_cases hw : countLeadingWs l = 0
  · rw [if_pos hw] at h
    simp at h
  · rw [if_neg hw] at h
    by_cases h1 : ¬(1 ≤ digitRunLen (l.drop (countLeadingWs l)) ∧
        digitRunLen (l.drop (countLeadingWs l)) ≤ 2)
    · rw [if_pos h1] at h
      simp at h
    · push_neg at h1
      obtain ⟨tc, htc, hd⟩ := digitRun_pos (l := l.drop (countLeadingWs l)) (by omega)
      exact ⟨tc, List.drop_subset _ _ htc, hd⟩

theorem colorDateMatchLen_none {t : Str} (h : cleanSafe t) (prev : Option Char) :
    colorDateMatchLen prev t = none := by
  unfold colorDateMatchLen
  by_cases hb : boundaryOk prev = false
  · rw [if_pos hb]
  · rw [if_neg hb]
    cases hcd : (colorWords.filterMap (fun w =>
        if ciPrefix w t = true then (dateTailLen (t.drop w.length)).map (w.length + ·)
        else none)).head? with
    | none => rfl
    | some y =>
      obtain ⟨w, _, hfw⟩ := filterMapHead hcd
      by_cases hp : ciPrefix w t = true
      · rw [if_pos hp] at hfw
        cases hdt : dateTailLen (t.drop w.length) with
        | none => rw [hdt] at hfw; simp at hfw
        | some m =>
          obtain ⟨tc, htc, hd⟩ := dateTail_digit hdt
          have := cleanSafe_no_digit h (List.drop_subset _ _ htc)
          rw [hd] at this
          exact absurd this (by simp)
      · rw [if_neg hp] at hfw
        simp at hfw

theorem subColorDateGo_id : ∀ (fuel : Nat) (prev : Option Char) (l : Str),
    cleanSafe l → subColorDateGo fuel prev l = l := by
  intro fuel
  induction fuel with
  | zero => intro prev l _; rfl
  | succ f ih =>
    intro prev l h
    cases l with
    | nil => rfl
    | cons c rest =>
      simp only [subColorDateGo, colorDateMatchLen_none h prev, List.cons.injEq, true_and]
      exact ih (some c) rest (cleanSafe_sub h (fun x hx => List.mem_cons_of_mem _ hx))

theorem isPageNumLine_false {l : Str} (h : cleanSafe l) : isPageNumLine l = false := by
  have hr : digitRunLen (l.dropWhile isPyWs) = 0 := by
    by_contra hne
    obtain ⟨tc, htc, hd⟩ := digitRun_pos (Nat.pos_of_ne_zero hne)
    have := cleanSafe_no_digit h ((List.dropWhile_sublist _).subset htc)
    rw [hd] at this
    exact absurd this (by simp)
  simp only [isPageNumLine]
  rw [if_pos hr]

theorem subPageWordGo_id : ∀ (fuel : Nat) (prev : Option Char) (l : Str),
    cleanSafe l → subPageWordGo fuel prev l = l := by
  intro fuel
  induction fuel with
  | zero => intro prev l _; rfl
  | succ f ih =>
    intro prev l h
    cases l with
    | nil => rfl
    | cons c rest =>
      have hm : (if boundaryOk prev = true ∧ ciPrefix (strL "PAGE") (c :: rest) = true then
          if countLeadingWs ((c :: rest).drop 4) = 0 then none
          else if digitRunLen (((c :: rest).drop 4).drop
              (countLeadingWs ((c :: rest).drop 4))) = 0 then none
          else if endBoundary ((((c :: rest).drop 4).drop
              (countLeadingWs ((c :: rest).drop 4))).drop
              (digitRunLen (((c :: rest).drop 4).drop
                (countLeadingWs ((c :: rest).drop 4))))) = false then none
          else some (4 + countLeadingWs ((c :: rest).drop 4) +
            digitRunLen (((c :: rest).drop 4).drop (countLeadingWs ((c :: rest).drop 4))))
        else (none : Option Nat)) = none := by
        by_cases hb : boundaryOk prev = true ∧ ciPrefix (strL "PAGE") (c :: rest) = true
        · by_cases hw : countLeadingWs ((c :: rest).drop 4) = 0
          · rw [if_pos hb, if_pos hw]
          · have hr : digitRunLen (((c :: rest).drop 4).drop
                (countLeadingWs ((c :: rest).drop 4))) = 0 := by
              by_contra hne
              obtain ⟨tc, htc, hd⟩ := digitRun_pos (Nat.pos_of_ne_zero hne)
              have := cleanSafe_no_digit h
                (List.drop_subset _ _ (List.drop_subset _ _ htc))
              rw [hd] at this
              exact absurd this (by simp)
            rw [if_pos hb, if_neg hw, if_pos hr]
        · rw [if_neg hb]
      simp only [subPageWordGo, hm, List.cons.injEq, true_and]
      exact ih (some c) rest (cleanSafe_sub h (fun x hx => List.mem_cons_of_mem _ hx))

theorem tailNumShape_false {l : Str} (h : cleanSafe l) : tailNumShape l = false := by
  by_cases hw : countLeadingWs l = 0
  · simp [tailNumShape, hw]
  · have hr : digitRunLen (l.drop (countLeadingWs l)) = 0 := by
      by_contra hne
      obtain ⟨tc, htc, hd⟩ := digitRun_pos (Nat.pos_of_ne_zero hne)
      have := cleanSafe_no_digit h (List.drop_subset _ _ htc)
      rw [hd] at this
      exact absurd this (by simp)
    simp [tailNumShape, hw, hr]

theorem subTrailingNumGo_id : ∀ (fuel : Nat) (l : Str), cleanSafe l →
    subTrailingNumGo fuel l = l := by
  intro fuel
  induction fuel with
  | zero => intro l _; rfl
  | succ f ih =>
    intro l h
    cases l with
    | nil => rfl
    | cons c rest =>
      have hf := tailNumShape_false h
      simp only [subTrailingNumGo, hf, Bool.false_eq_true, if_false, List.cons.injEq,
        true_and]
      exact ih rest (cleanSafe_sub h (fun x hx => List.mem_cons_of_mem _ hx))

theorem rsa_safe {l : Str} (h : cleanSafe l) :
    remove_script_artifacts l = pyStrip l := by
  simp only [remove_script_artifacts]
  rw [subColorDateGo_id _ _ _ h, isPageNumLine_false h]
  simp only [Bool.false_eq_true, if_false]
  rw [subPageWordGo_id _ _ _ h, subTrailingNumGo_id _ _ h]

theorem cleanSafe_strip {l : Str} (h : cleanSafe l) : cleanSafe (pyStrip l) :=
  cleanSafe_sub h (pyStrip_within l).subset

theorem clean_text_safe {l : Str} (h : cleanSafe l) : clean_text l = pyStrip l := by
  unfold clean_text
  rw [rtm_safe h, fix_ocr_errors_id (cleanSafe_strip h), rsa_safe (cleanSafe_strip h),
    pyStrip_idem, pyStrip_idem]

/-- C3 amended: the cleaning functions are idempotent on every string that
contains no `<`, `>`, digit, `b` or `B`: on that class each substitution
pass has nothing to rewrite (every OCR-correction pattern contains a `b`
or a digit, every artifact pattern a digit, every marker a `<` or `>`), so
the functions reduce to `strip()`, which is idempotent.  Outside the
class idempotence fails (see the counterexample). -/
theorem c3_amended (l : Str) (h : cleanSafe l) :
    remove_translation_markers (remove_translation_markers l) =
      remove_translation_markers l ∧
    fix_ocr_errors (fix_ocr_errors l) = fix_ocr_errors l ∧
    remove_script_artifacts (remove_script_artifacts l) = remove_script_artifacts l ∧
    clean_text (clean_text l) = clean_text l := by
  refine ⟨?_, ?_, ?_, ?_⟩
  · rw [rtm_safe h, rtm_safe (cleanSafe_strip h), pyStrip_idem]
  · rw [fix_ocr_errors_id h, fix_ocr_errors_id h]
  · rw [rsa_safe h, rsa_safe (cleanSafe_strip h), pyStrip_idem]
  · rw [clean_text_safe h, clean_text_safe (cleanSafe_strip h), pyStrip_idem]

/-- Witness for `c3_amended` at a concrete marker-, digit- and b-free
string. -/
theorem c3_amended_witness :
    clean_text (clean_text (strL "  the quick red fox  ")) =
      clean_text (strL "  the quick red fox  ") :=
  (c3_amended (strL "  the quick red fox  ") (by decide)).2.2.2

/-! ## llm_text.py `_chunk_text` — overlapping boundary-aware chunking -/

/-- Length of a `\n\s*(INT\.|EXT\.)` match starting at the head of `l`. -/
def sceneMatchLen (l : Str) : Option Nat :=
  match l with
  | [] => none
  | c :: rest =>
    if c = '\n' then
      if (strL "INT.").isPrefixOf (rest.drop (countLeadingWs rest)) ∨
          (strL "EXT.").isPrefixOf (rest.drop (countLeadingWs rest)) then
        some (1 + countLeadingWs rest + 4)
      else none
    else none

/-- Start index of the last `re.finditer` match of `\n\s*(INT\.|EXT\.)`
(non-overlapping scan, as `finditer` does). -/
def sceneLastMatchAux : Nat → Str → Nat → Option Nat → Option Nat
  | 0, _, _, acc => acc
  | _ + 1, [], _, acc => acc
  | fuel + 1, c :: rest, pos, acc =>
    match sceneMatchLen (c :: rest) with
    | some n => sceneLastMatchAux fuel ((c :: rest).drop n) (pos + n) (some pos)
    | none => sceneLastMatchAux fuel rest (pos + 1) acc

def sceneLastMatchStart (l : Str) : Option Nat :=
  sceneLastMatchAux (l.length + 1) l 0 none

/-- The boundary-search adjustment of `end_pos` inside the chunk loop. -/
def adjustEnd (st : Str) (ss fallback : Nat) : Nat :=
  match sceneLastMatchStart st with
  | some p => ss + p
  | none =>
    match pyRfind (strL "\n\n") st with
    | some q => if 0 < q then ss + q else fallback
    | none => fallback

/-- `search_start = max(end_pos - search_window, current_pos + min_chunk)`. -/
def searchStart (text : Str) (cs cp : Nat) : Nat :=
  max (min (cp + cs) text.length - min 500 (cs / 4)) (cp + cs / 2)

/-- The final `end_pos` of one iteration of the chunk loop. -/
def chunkEnd (text : Str) (cs cp : Nat) : Nat :=
  if min (cp + cs) text.length < text.length then
    adjustEnd (pySlice text (searchStart text cs cp) (min (cp + cs) text.length))
      (searchStart text cs cp) (min (cp + cs) text.length)
  else min (cp + cs) text.length

/-- The `while current_pos < len(text)` loop of `_chunk_text`. -/
def chunkGo (text : Str) (cs ov : Nat) : Nat → Nat → List Str
  | 0, _ => []
  | fuel + 1, cp =>
    if cp < text.length then
      (if pyStrip (pySlice text cp (chunkEnd text cs cp)) = [] then []
       else [pyStrip (pySlice text cp (chunkEnd text cs cp))]) ++
      (if text.length ≤ chunkEnd text cs cp then []
       else chunkGo text cs ov fuel (max (chunkEnd text cs cp - ov) (cp + cs / 2)))
    else []

/-- `_chunk_text`. -/
def _chunk_text (text : Str) (chunk_size overlap : Nat) : List Str :=
  if text.length ≤ chunk_size then [text]
  else chunkGo text chunk_size overlap (text.length + 1) 0

/-- The reconstruction the claim describes: concatenate the chunks, first
removing the `overlap`-character overlap region from every chunk after the
first. -/
def reconChunks (overlap : Nat) : List Str → Str
  | [] => []
  | c :: rest => c ++ (rest.map (List.drop overlap)).flatten

example : _chunk_text (strL "aaaa \n bbbb") 5 0 =
    [strL "aaaa", strL "bbb", strL "b"] := by decide

/-- C5 counterexample: chunk boundaries strip whitespace, so even with
`overlap = 0` (no overlap regions at all) concatenating the chunks loses
the whitespace at the boundaries and does not reconstruct the input. -/
theorem c5_counterexample :
    _chunk_text (strL "aaaa \n bbbb") 5 0 = [strL "aaaa", strL "bbb", strL "b"] ∧
    reconChunks 0 (_chunk_text (strL "aaaa \n bbbb") 5 0) ≠ strL "aaaa \n bbbb" := by
  decide

theorem headMem {l : Str} {x : Char} (h : l.head? = some x) : x ∈ l := by
  cases l with
  | nil => simp at h
  | cons c rest =>
    simp only [List.head?_cons, Option.some.injEq] at h
    subst h
    exact List.mem_cons_self _ _

theorem noWs_strip {s : Str} (h : ∀ c ∈ s, isPyWs c = false) : pyStrip s = s := by
  unfold pyStrip
  rw [dropWhile_eq_self_of_head (fun x hx => h x (headMem hx))]
  rw [dropWhile_eq_self_of_head (fun x hx =>
    h x (List.mem_reverse.mp (headMem hx)))]
  exact List.reverse_reverse _

theorem sceneMatchLen_noWs {l : Str} (h : ∀ c ∈ l, isPyWs c = false) :
    sceneMatchLen l = none := by
  cases l with
  | nil => rfl
  | cons c rest =>
    simp only [sceneMatchLen]
    rw [if_neg]
    intro hc
    have := h c (List.mem_cons_self _ _)
    rw [hc] at this
    exact absurd this (by decide)

theorem sceneLastAux_noWs : ∀ (fuel : Nat) (l : Str) (pos : Nat),
    (∀ c ∈ l, isPyWs c = false) → sceneLastMatchAux fuel l pos none = none := by
  intro fuel
  induction fuel with
  | zero => intro l pos _; rfl
  | succ f ih =>
    intro l pos h
    cases l with
    | nil => rfl
    | cons c rest =>
      simp only [sceneLastMatchAux, sceneMatchLen_noWs h]
      exact ih rest (pos + 1) (fun x hx => h x (List.mem_cons_of_mem _ hx))

theorem sceneLast_noWs {l : Str} (h : ∀ c ∈ l, isPyWs c = false) :
    sceneLastMatchStart l = none :=
  sceneLastAux_noWs _ l 0 h

theorem rfind_nn_noWs : ∀ (l : Str), (∀ c ∈ l, isPyWs c = false) →
    pyRfind (strL "\n\n") l = none := by
  intro l
  induction l with
  | nil => intro _; decide
  | cons c rest ih =>
    intro h
    simp only [pyRfind, ih (fun x hx => h x (List.mem_cons_of_mem _ hx))]
    rw [if_neg]
    intro hp
    have hc : c = '\n' := by
      have : (strL "\n\n").isPrefixOf (c :: rest) = true := hp
      rw [show strL "\n\n" = '\n' :: '\n' :: [] from rfl] at this
      simp only [List.isPrefixOf, Bool.and_eq_true, beq_iff_eq] at this
      exact this.1.symm
    have := h c (List.mem_cons_self _ _)
    rw [hc] at this
    exact absurd this (by decide)

theorem pySlice_subset (text : Str) (a b : Nat) : pySlice text a b ⊆ text :=
  fun _ hx => List.take_subset _ _ (List.drop_subset _ _ hx)

theorem chunkEnd_noWs {text : Str} (cs cp : Nat)
    (h : ∀ c ∈ text, isPyWs c = false) :
    chunkEnd text cs cp = min (cp + cs) text.length := by
  unfold chunkEnd
  by_cases hlt : min (cp + cs) text.length < text.length
  · rw [if_pos hlt]
    unfold adjustEnd
    rw [sceneLast_noWs (fun x hx => h x (pySlice_subset text _ _ hx)),
      rfind_nn_noWs _ (fun x hx => h x (pySlice_subset text _ _ hx))]
  · rw [if_neg hlt]

theorem chunkGo_recon (text : Str) (cs ov : Nat) (hcs : 0 < cs) (hov : ov < cs)
    (hclamp : ov + cs / 2 ≤ cs) (hws : ∀ c ∈ text, isPyWs c = false) :
    ∀ (fuel cp : Nat), cp < text.length → text.length - cp ≤ fuel →
      reconChunks ov (chunkGo text cs ov fuel cp) = text.drop cp ∧
      ((chunkGo text cs ov fuel cp).map (List.drop ov)).flatten =
        text.drop (cp + ov) := by
  intro fuel
  induction fuel with
  | zero => intro cp h1 h2; omega
  | succ f ih =>
    intro cp hcp hfuel
    have hend := @chunkEnd_noWs text cs cp hws
    by_cases hA : text.length ≤ cp + cs
    · -- final chunk: end_pos = len(text)
      have he : chunkEnd text cs cp = text.length := by omega
      have hslice : pySlice text cp (chunkEnd text cs cp) = text.drop cp := by
        rw [he]
        unfold pySlice
        rw [List.take_length]
      have hchunk : pyStrip (pySlice text cp (chunkEnd text cs cp)) = text.drop cp := by
        rw [hslice]
        exact noWs_strip (fun x hx => hws x (List.drop_subset _ _ hx))
      have hne : text.drop cp ≠ [] := by
        rw [ne_eq, List.drop_eq_nil_iff]
        omega
      have htend : text.length ≤ chunkEnd text cs cp := by omega
      simp only [chunkGo, if_pos hcp, hchunk, if_neg hne, if_pos htend]
      constructor
      · simp [reconChunks]
      · simp only [List.append_nil, List.map_cons, List.map_nil, List.flatten_cons,
          List.flatten_nil]
        rw [List.drop_drop]
    · -- interior chunk: end_pos = cp + cs < len(text)
      push_neg at hA
      have he : chunkEnd text cs cp = cp + cs := by omega
      have hslice : pySlice text cp (chunkEnd text cs cp) =
          (text.drop cp).take cs := by
        rw [he]
        unfold pySlice
        rw [List.drop_take]
        congr 1
        omega
      have hchunk : pyStrip (pySlice text cp (chunkEnd text cs cp)) =
          (text.drop cp).take cs := by
        rw [hslice]
        exact noWs_strip (fun x hx =>
          hws x (List.drop_subset _ _ (List.take_subset _ _ hx)))
      have hne : (text.drop cp).take cs ≠ [] := by
        rw [ne_eq, List.take_eq_nil_iff]
        push_neg
        refine ⟨by omega, ?_⟩
        rw [ne_eq, List.drop_eq_nil_iff]
        omega
      have hnotend : ¬(text.length ≤ chunkEnd text cs cp) := by omega
      have hcp2 : max (chunkEnd text cs cp - ov) (cp + cs / 2) = cp + (cs - ov) := by
        rw [he]
        omega
      obtain ⟨ihr, ihf⟩ := ih (cp + (cs - ov)) (by omega) (by omega)
      have hsum : cp + (cs - ov) + ov = cp + cs := by omega
      rw [hsum] at ihf
      simp only [chunkGo, if_pos hcp, hchunk, if_neg hne, if_neg hnotend, hcp2]
      constructor
      · simp only [reconChunks, List.singleton_append]
        rw [ihf]
        have : text.drop (cp + cs) = (text.drop cp).drop cs := by
          rw [List.drop_drop]
        rw [this, List.take_append_drop]
      · simp only [List.singleton_append, List.map_cons, List.flatten_cons]
        rw [ihf]
        rw [List.drop_take]
        have h1 : (text.drop cp).drop ov = text.drop (cp + ov) := by
          rw [List.drop_drop]
        rw [h1]
        have h2 : text.drop (cp + cs) = (text.drop (cp + ov)).drop (cs - ov) := by
          rw [List.drop_drop]
          congr 1
          omega
        rw [h2, List.take_append_drop]

/-- C5 amended: a single-chunk input is returned verbatim, and for inputs
containing no whitespace (so that neither the scene/paragraph boundary
search nor the per-chunk `strip()` can move material) with
`overlap < chunk_size` and `overlap + chunk_size // 2 ≤ chunk_size` (so
the progress clamp never shortens the overlap), dropping the first
`overlap` characters of every chunk after the first and concatenating
reconstructs the input exactly, for any input length, including exact
multiples of the chunk size.  On general inputs the reconstruction fails
(see the counterexample). -/
theorem c5_amended (text : Str) (chunk_size overlap : Nat) :
    (text.length ≤ chunk_size → _chunk_text text chunk_size overlap = [text]) ∧
    (0 < chunk_size → overlap < chunk_size →
      overlap + chunk_size / 2 ≤ chunk_size →
      (∀ c ∈ text, isPyWs c = false) →
      reconChunks overlap (_chunk_text text chunk_size overlap) = text) := by
  constructor
  · intro h
    unfold _chunk_text
    rw [if_pos h]
  · intro hcs hov hclamp hws
    unfold _chunk_text
    by_cases hsmall : text.length ≤ chunk_size
    · rw [if_pos hsmall]
      simp [reconChunks]
    · rw [if_neg hsmall]
      have := (chunkGo_recon text chunk_size overlap hcs hov hclamp hws
        (text.length + 1) 0 (by omega) (by omega)).1
      rw [this]
      rfl

/-- Witness for `c5_amended`: both the small-input case and a concrete
multi-chunk whitespace-free reconstruction. -/
theorem c5_amended_witness :
    _chunk_text (strL "ab") 5 1 = [strL "ab"] ∧
    reconChunks 1 (_chunk_text (strL "abcdefghijk") 4 1) = strL "abcdefghijk" := by
  constructor
  · exact (c5_amended (strL "ab") 5 1).1 (by decide)
  · exact (c5_amended (strL "abcdefghijk") 4 1).2 (by decide) (by decide) (by decide)
      (by decide)

/-! ## JSON values and `json.loads`

A model of the Python `json` module on the fragment the parsers exchange:
values are null, booleans, numbers (kept as their literal text; no claim
here inspects a numeric value), strings, arrays and objects.  The parser
is strict like `json.loads`: no trailing data, no control characters in
strings, `\uXXXX` decoded as a code point (surrogate-pair combination is
not modelled; the inputs considered contain no `\u` escapes). -/

inductive Json where
  | null
  | bool (b : Bool)
  | num (lit : Str)
  | str (s : Str)
  | arr (items : List Json)
  | obj (members : List (Str × Json))

def isJsonWs (c : Char) : Bool := c = ' ' || c = '\t' || c = '\n' || c = '\r'

def skipJWs (l : Str) : Str := l.dropWhile isJsonWs

def hexVal (c : Char) : Option Nat :=
  if '0' ≤ c ∧ c ≤ '9' then some (c.toNat - '0'.toNat)
  else if 'a' ≤ c ∧ c ≤ 'f' then some (c.toNat - 'a'.toNat + 10)
  else if 'A' ≤ c ∧ c ≤ 'F' then some (c.toNat - 'A'.toNat + 10)
  else none

/-- Parse a JSON string body (after the opening quote): returns the
decoded content and the rest after the closing quote.  The recursion runs
on fuel (one unit per consumed character) so that applications with a
known prefix and a symbolic tail still reduce. -/
def parseStrBodyF : Nat → Str → Option (Str × Str)
  | 0, _ => none
  | _ + 1, [] => none
  | fuel + 1, c :: rest =>
    if c = '"' then some ([], rest)
    else if c = '\\' then
      match rest with
      | [] => none
      | e :: rest2 =>
        if e = 'u' then
          match rest2 with
          | h1 :: h2 :: h3 :: h4 :: rest3 =>
            match hexVal h1, hexVal h2, hexVal h3, hexVal h4 with
            | some v1, some v2, some v3, some v4 =>
              match parseStrBodyF fuel rest3 with
              | some (s, rr) =>
                some (Char.ofNat (((v1 * 16 + v2) * 16 + v3) * 16 + v4) :: s, rr)
              | none => none
            | _, _, _, _ => none
          | _ => none
        else
          match
            (if e = '"' then some '"'
             else if e = '\\' then some '\\'
             else if e = '/' then some '/'
             else if e = 'b' then some '\x08'
             else if e = 'f' then some '\x0c'
             else if e = 'n' then some '\n'
             else if e = 'r' then some '\r'
             else if e = 't' then some '\t'
             else none) with
          | some ch =>
            match parseStrBodyF fuel rest2 with
            | some (s, rr) => some (ch :: s, rr)
            | none => none
          | none => none
    else if c.toNat < 32 then none
    else
      match parseStrBodyF fuel rest with
      | some (s, rr) => some (c :: s, rr)
      | none => none

/-- `parseStrBodyF` with enough fuel for the whole remaining text. -/
def parseStrBody (l : Str) : Option (Str × Str) :=
  parseStrBodyF (l.length + 1) l

/-- Parse a JSON number literal (`-?(0|[1-9]\d*)(\.\d+)?([eE][+-]?\d+)?`),
returning the literal text and the rest. -/
def parseNumLit (l : Str) : Option (Str × Str) :=
  let (sign, l1) : Str × Str :=
    match l with
    | '-' :: r => (['-'], r)
    | _ => ([], l)
  match l1 with
  | [] => none
  | d :: r =>
    if ¬('0' ≤ d ∧ d ≤ '9') then none
    else
      let (ip, l2) : Str × Str :=
        if d = '0' then (['0'], r)
        else (d :: r.takeWhile isAsciiDigit, r.drop (r.takeWhile isAsciiDigit).length)
      let (fp, l3) : Str × Str :=
        match l2 with
        | '.' :: fr =>
          if (fr.takeWhile isAsciiDigit).length = 0 then ([], l2)
          else ('.' :: fr.takeWhile isAsciiDigit,
            fr.drop (fr.takeWhile isAsciiDigit).length)
        | _ => ([], l2)
      let (ep, l4) : Str × Str :=
        match l3 with
        | e :: er =>
          if e = 'e' ∨ e = 'E' then
            match er with
            | s :: er2 =>
              if s = '+' ∨ s = '-' then
                if (er2.takeWhile isAsciiDigit).length = 0 then ([], l3)
                else (e :: s :: er2.takeWhile isAsciiDigit,
                  er2.drop (er2.takeWhile isAsciiDigit).length)
              else
                if (er.takeWhile isAsciiDigit).length = 0 then ([], l3)
                else (e :: er.takeWhile isAsciiDigit,
                  er.drop (er.takeWhile isAsciiDigit).length)
            | [] => ([], l3)
          else ([], l3)
        | [] => ([], l3)
      some (sign ++ ip ++ fp ++ ep, l4)

/-- What the fuel-driven JSON parser is currently doing: parsing a value,
or inside an array/object element loop with the members parsed so far. -/
inductive PMode where
  | value
  | elems (acc : List Json)
  | members (acc : List (Str × Json))

/-- The recursive JSON parser; fuel decreases at every recursive call, and
`2 * length + 2` always suffices. -/
def parseJ : Nat → PMode → Str → Option (Json × Str)
  | 0, _, _ => none
  | fuel + 1, .value, l =>
    match skipJWs l with
    | [] => none
    | c :: rest =>
      if c = '{' then
        match skipJWs rest with
        | '}' :: r2 => some (.obj [], r2)
        | _ => parseJ fuel (.members []) rest
      else if c = '[' then
        match skipJWs rest with
        | ']' :: r2 => some (.arr [], r2)
        | _ => parseJ fuel (.elems []) rest
      else if c = '"' then
        match parseStrBody rest with
        | some (s, r2) => some (.str s, r2)
        | none => none
      else if c = 't' then
        if (strL "rue").isPrefixOf rest then some (.bool true, rest.drop 3) else none
      else if c = 'f' then
        if (strL "alse").isPrefixOf rest then some (.bool false, rest.drop 4) else none
      else if c = 'n' then
        if (strL "ull").isPrefixOf rest then some (.null, rest.drop 3) else none
      else
        match parseNumLit (c :: rest) with
        | some (lit, r2) => some (.num lit, r2)
        | none => none
  | fuel + 1, .elems acc, l =>
    match parseJ fuel .value l with
    | some (v, r2) =>
      match skipJWs r2 with
      | ',' :: r3 => parseJ fuel (.elems (acc ++ [v])) r3
      | ']' :: r3 => some (.arr (acc ++ [v]), r3)
      | _ => none
    | none => none
  | fuel + 1, .members acc, l =>
    match skipJWs l with
    | '"' :: rest =>
      match parseStrBody rest with
      | some (k, r2) =>
        match skipJWs r2 with
        | ':' :: r3 =>
          match parseJ fuel .value r3 with
          | some (v, r4) =>
            match skipJWs r4 with
            | ',' :: r5 => parseJ fuel (.members (acc ++ [(k, v)])) r5
            | '}' :: r5 => some (.obj (acc ++ [(k, v)]), r5)
            | _ => none
          | none => none
        | _ => none
      | none => none
    | _ => none

/-- `json.loads`: parse one value and require only whitespace after it. -/
def loads (l : Str) : Option Json :=
  match parseJ (2 * l.length + 2) .value l with
  | some (v, rest) => if skipJWs rest = [] then some v else none
  | none => none

example : loads (strL "\x7b\"a\": [1, \"x\"], \"a\": null\x7d") =
    some (.obj [(strL "a", .arr [.num (strL "1"), .str (strL "x")]),
      (strL "a", .null)]) := rfl

example : loads (strL " [true, false, -1.5e3] ") =
    some (.arr [.bool true, .bool false, .num (strL "-1.5e3")]) := rfl

example : loads (strL "\x7b\"a\": 1") = none := rfl

example : loads (strL "\x7b\"a\": 1\x7d extra") = none := rfl

/-! ## llm_text.py `_parse_json_response` / `_repair_json` -/

/-- Python truthiness of a JSON value. -/
def pyTruthy : Json → Bool
  | .null => false
  | .bool b => b
  | .num lit =>
    !((lit.takeWhile (fun c => c ≠ 'e' ∧ c ≠ 'E')).filter isAsciiDigit).all (· = '0')
  | .str s => !s.isEmpty
  | .arr items => !items.isEmpty
  | .obj ms => !ms.isEmpty

/-- Content before the closing code fence: the lazy group of the fence
regex stops at the first position whose whitespace run is directly
followed by three backticks, else runs to the end of the text. -/
def fenceCloseSplit : Nat → Str → Str
  | 0, l => l
  | _ + 1, [] => []
  | fuel + 1, c :: rest =>
    if (strL "```").isPrefixOf ((c :: rest).dropWhile isPyWs) then []
    else c :: fenceCloseSplit fuel rest

/-- `re.search(r'```(?:json)?\s*([\s\S]*?)(?:\s*```|$)', response)`: the
pattern matches at the first triple backtick; the optional `json` tag and
the greedy `\s*` are consumed, and the lazy body group ends before the
next closing fence or at the end. -/
def fenceExtract (response : Str) : Option Str :=
  match pyFind (strL "```") response with
  | some i =>
    let after := response.drop (i + 3)
    let after2 := if (strL "json").isPrefixOf after then after.drop 4 else after
    let content := after2.dropWhile isPyWs
    some (fenceCloseSplit (content.length + 1) content)
  | none => none

/-- `_repair_json`: when the brace/bracket counts of the text are
unbalanced, trim back to the last comma (when its index is positive) and
append the missing closing brackets then braces, counted on the original
text, and re-parse. -/
def _repair_json (json_text : Str) : Option Json :=
  let ob := json_text.count '{'
  let cb := json_text.count '}'
  let obk := json_text.count '['
  let cbk := json_text.count ']'
  if ob > cb ∨ obk > cbk then
    let jt2 :=
      match pyRfind (strL ",") json_text with
      | some i => if 0 < i then json_text.take i else json_text
      | none => json_text
    loads (jt2 ++ List.replicate (obk - cbk) ']' ++ List.replicate (ob - cb) '}')
  else none

/-- The `response.find('{')` fallback of `_parse_json_response`; a falsy
repaired value fails the `if repaired:` guard and `None` is returned. -/
def braceFallback (response : Str) : Option Json :=
  match pyFind (strL "\x7b") response with
  | some start =>
    match loads (response.drop start) with
    | some d => some d
    | none =>
      match _repair_json (response.drop start) with
      | some d => if pyTruthy d = true then some d else none
      | none => none
  | none => none

/-- `_parse_json_response`: direct parse, else fenced block (parse, then
repair; a falsy repaired value fails `if repaired:` and control falls
through), else parse or repair from the first `{`. -/
def _parse_json_response (response : Str) : Option Json :=
  match loads response with
  | some d => some d
  | none =>
    match fenceExtract response with
    | some g =>
      match loads (pyStrip g) with
      | some d => some d
      | none =>
        match _repair_json (pyStrip g) with
        | some d => if pyTruthy d = true then some d else braceFallback response
        | none => braceFallback response
    | none => braceFallback response

example : _parse_json_response (strL "```json\n\x7b\"a\": 1\x7d\n```") =
    some (.obj [(strL "a", .num (strL "1"))]) := rfl

example : _repair_json (strL "\x7b\"lines\": [\x7b\"a\": 1\x7d,") =
    some (.obj [(strL "lines", .arr [.obj [(strL "a", .num (strL "1"))]])]) := rfl

/-! ## llm_text.py `_convert_scriptdle_data` and `parse_text_llm`

Python exceptions inside a chunk (attribute errors on non-dict values,
iterating non-iterables, `.strip()` on non-strings) are modelled by
`Except Unit`; `parse_text_llm` catches them and skips the chunk. -/

/-- `schema.DialogueLine`. -/
structure DialogueLine where
  character : Str
  text : Str
deriving DecidableEq, Repr

/-- `schema.Scriptdle`. -/
structure Scriptdle where
  id : Str
  title : Str
  year : Option Int
  characters : List Str
  lines : List DialogueLine
deriving DecidableEq, Repr

def optTruthy : Option Json → Bool
  | none => false
  | some v => pyTruthy v

/-- `d[k]` lookup on an object (later duplicate keys win, as in a Python
dict built by `json.loads`); `none` when missing or not an object. -/
def jgetOpt : Json → Str → Option Json
  | .obj ms, k => ((ms.filter (fun m => decide (m.1 = k))).getLast?).map Prod.snd
  | _, _ => none

/-- `data.get(k, default)`; `.get` on a non-dict raises. -/
def dictGet (j : Json) (k : Str) (default : Json) : Except Unit Json :=
  match j with
  | .obj _ => .ok ((jgetOpt j k).getD default)
  | _ => .error ()

/-- `for x in v`: lists yield their items, strings their one-character
substrings, dicts their keys; other values raise. -/
def asList : Json → Except Unit (List Json)
  | .arr items => .ok items
  | .str s => .ok (s.map (fun c => Json.str [c]))
  | .obj ms => .ok (ms.map (fun m => Json.str m.1))
  | _ => .error ()

/-- `(x or "").strip()`-style access: falsy values give `""`; a truthy
non-string raises on `.strip()`. -/
def strOrEmpty : Option Json → Except Unit Str
  | none => .ok []
  | some v =>
    if pyTruthy v = false then .ok []
    else match v with
      | .str s => .ok s
      | _ => .error ()

/-- Python `a or b`. -/
def jOr (a b : Option Json) : Option Json :=
  match a with
  | some v => if pyTruthy v = true then some v else b
  | none => b

/-- `set.add`. -/
def addSet (l : List Str) (x : Str) : List Str :=
  if x ∈ l then l else l ++ [x]

/-- `sorted(set(xs))` (code-point order on strings). -/
def pySortedSet (xs : List Str) : List Str :=
  List.insertionSort (· ≤ ·) xs.dedup

/-- One iteration of the `for item in line_data` loop of
`_convert_scriptdle_data`. -/
def convItemStep (acc : List DialogueLine × List Str) (item : Json) :
    Except Unit (List DialogueLine × List Str) :=
  match item with
  | .obj _ =>
    match strOrEmpty (jgetOpt item (strL "character")) with
    | .error e => .error e
    | .ok charS =>
      match strOrEmpty (jOr (jgetOpt item (strL "text"))
          (jgetOpt item (strL "content"))) with
      | .error e => .error e
      | .ok textS =>
        if (pyStrip charS).map asciiUpper ≠ [] ∧ pyStrip textS ≠ [] then
          .ok (acc.1 ++ [⟨(pyStrip charS).map asciiUpper, pyStrip textS⟩],
            addSet acc.2 ((pyStrip charS).map asciiUpper))
        else .ok acc
  | _ => .error ()

/-- One iteration of the `for dial in scene.get("dialogue", [])` loop. -/
def convDialStep (acc : List Json) (dial : Json) : Except Unit (List Json) :=
  match dial with
  | .obj _ =>
    let char := jgetOpt dial (strL "character")
    let text := jOr (jgetOpt dial (strL "text")) (jgetOpt dial (strL "content"))
    if optTruthy char = true ∧ optTruthy text = true then
      .ok (acc ++ [Json.obj [(strL "character", char.getD .null),
        (strL "text", text.getD .null)]])
    else .ok acc
  | _ => .error ()

/-- One iteration of the `for scene in data.get("scenes", [])` loop. -/
def convSceneStep (acc : List Json) (scene : Json) : Except Unit (List Json) :=
  match dictGet scene (strL "dialogue") (.arr []) with
  | .error e => .error e
  | .ok dialogue =>
    match asList dialogue with
    | .error e => .error e
    | .ok dl => dl.foldlM convDialStep acc

/-- One iteration of the `for char in data.get("characters", [])` loop. -/
def convCharStep (acc : List Str) (c : Json) : Except Unit (List Str) :=
  if pyTruthy c = true then
    match c with
    | .str s => .ok (addSet acc ((pyStrip s).map asciiUpper))
    | _ => .error ()
  else .ok acc

/-- The `line_data` the item loop runs over: the truthy `"lines"` value,
or the entries collected from `"scenes"` (appending to a non-list falsy
`line_data` raises; iterating an unchanged falsy one yields nothing or
raises, per `asList`). -/
def convGetItems (data : Json) : Except Unit (List Json) :=
  match dictGet data (strL "lines") (.arr []) with
  | .error e => .error e
  | .ok lineData0 =>
    if pyTruthy lineData0 = true then asList lineData0
    else
      match dictGet data (strL "scenes") (.arr []) with
      | .error e => .error e
      | .ok scenes =>
        match asList scenes with
        | .error e => .error e
        | .ok sl =>
          match sl.foldlM convSceneStep [] with
          | .error e => .error e
          | .ok newItems =>
            if newItems.isEmpty = true then asList lineData0
            else
              match lineData0 with
              | .arr [] => .ok newItems
              | _ => .error ()

/-- `_convert_scriptdle_data`. -/
def _convert_scriptdle_data (data : Json) :
    Except Unit (List DialogueLine × List Str) :=
  match convGetItems data with
  | .error e => .error e
  | .ok items =>
    match items.foldlM convItemStep ([], []) with
    | .error e => .error e
    | .ok lc =>
      match dictGet data (strL "characters") (.arr []) with
      | .error e => .error e
      | .ok chars0 =>
        match asList chars0 with
        | .error e => .error e
        | .ok cl =>
          match cl.foldlM convCharStep lc.2 with
          | .error e => .error e
          | .ok charsOut => .ok (lc.1, charsOut)

/-- The per-chunk accumulator of `parse_text_llm`:
`(all_lines, all_characters, detected_title)`. -/
def llmChunkStep (oracle : Nat → Except Str Str)
    (acc : List DialogueLine × List Str × Str) (ic : Nat × Str) :
    List DialogueLine × List Str × Str :=
  match oracle ic.1 with
  | .error _ => acc
  | .ok response =>
    match _parse_json_response response with
    | none => acc
    | some data =>
      if pyTruthy data = false then acc
      else
        match _convert_scriptdle_data data with
        | .error _ => acc
        | .ok (lines, chars) =>
          (acc.1 ++ lines, chars.foldl addSet acc.2.1,
           if acc.2.2 = [] ∧ optTruthy (jgetOpt data (strL "title")) = true then
             match jgetOpt data (strL "title") with
             | some (.str s) => s
             | _ => acc.2.2
           else acc.2.2)

/-- `Path(source_file).stem`. -/
def pathStem (p : Str) : Str :=
  let name := match pyRfind (strL "/") p with
    | some i => p.drop (i + 1)
    | none => p
  match pyRfind (strL ".") name with
  | some i => if 0 < i then name.take i else name
  | none => name

/-- `parse_text_llm`, with the LLM call abstracted to an oracle giving the
outcome of the `i`-th `client.generate` call (a response text, or the
exception the `except` branch catches to skip the chunk).  A chunk whose
`"title"` is truthy but not a string is outside the model (it would make
the later `_slugify` call crash the whole parse). -/
def parse_text_llm (oracle : Nat → Except Str Str) (text : Str)
    (source_file movie_id : Str) (title : Option Str) (year : Option Int)
    (chunk_size overlap max_chunks : Nat) : Scriptdle :=
  let chunks := _chunk_text text chunk_size overlap
  let chunks := if 0 < max_chunks then chunks.take max_chunks else chunks
  let res := chunks.enum.foldl (llmChunkStep oracle) ([], [], [])
  let titleVal := match title with
    | some t => if t ≠ [] then t else res.2.2
    | none => res.2.2
  let movie_id2 := if movie_id = [] ∧ titleVal ≠ [] then _slugify titleVal
    else movie_id
  { id := movie_id2,
    title := if titleVal ≠ [] then titleVal
      else if source_file ≠ [] then pathStem source_file else [],
    year := year,
    characters := pySortedSet res.2.1,
    lines := res.1 }

/-- `save_script` of the improved parser (the JSON payload it writes). -/
structure SaveData where
  id : Str
  title : Str
  year : Int
  characters : List Str
  lines : List DialogueLine
deriving DecidableEq, Repr

/-- `improved_parser.DialogueLine` (the heuristic parser's record). -/
structure IDialogueLine where
  character : Str
  text : Str
  parenthetical : Option Str
deriving DecidableEq, Repr

/-- `save_script`: the file write is abstracted away; the returned `data`
dict is modelled. -/
def save_script (movie_id title : Str) (year : Int)
    (dialogues : List IDialogueLine) : SaveData :=
  { id := movie_id, title := title, year := year,
    characters := pySortedSet (dialogues.map IDialogueLine.character),
    lines := dialogues.map (fun d => ⟨d.character, d.text⟩) }

/-- The chunk response used against C1: its `characters` array names a
speaker that occurs in no dialogue line. -/
def c1Response : Str :=
  strL "\x7b\"characters\": [\"GHOST\"], \"lines\": [\x7b\"character\": \"A\", \"text\": \"hi there\"\x7d]\x7d"

def c1Oracle : Nat → Except Str Str := fun _ => .ok c1Response

/-- C1 counterexample: `parse_text_llm` copies every name of a chunk's
`characters` array into the document roster, so `characters` strictly
exceeds `sorted(set(line.character for line in lines))`. -/
theorem c1_counterexample :
    (parse_text_llm c1Oracle (strL "shorttext") [] [] (some (strL "Ghost Movie"))
      none 12000 500 0).characters = [strL "A", strL "GHOST"] ∧
    pySortedSet ((parse_text_llm c1Oracle (strL "shorttext") [] []
      (some (strL "Ghost Movie")) none 12000 500 0).lines.map
        DialogueLine.character) = [strL "A"] ∧
    (parse_text_llm c1Oracle (strL "shorttext") [] [] (some (strL "Ghost Movie"))
      none 12000 500 0).characters ≠
    pySortedSet ((parse_text_llm c1Oracle (strL "shorttext") [] []
      (some (strL "Ghost Movie")) none 12000 500 0).lines.map
        DialogueLine.character) := by
  refine ⟨by decide, by decide, by decide⟩

theorem slugOk_nil : slugOk [] := by
  refine ⟨by simp, by simp, by simp, by simp⟩

/-- C10: `_slugify` always produces a string of lower-case ASCII letters,
digits and hyphens with no leading/trailing hyphen and no two adjacent
hyphens; hence the movie id `parse_text_llm` derives from a title (when
called with an empty `movie_id`) has this shape (the empty slug included).
-/
theorem c10_slugify_shape :
    (∀ s : Str, slugOk (_slugify s)) ∧
    (∀ (oracle : Nat → Except Str Str) (text source_file : Str)
       (title : Option Str) (year : Option Int) (cs ov mc : Nat),
      slugOk ((parse_text_llm oracle text source_file [] title year cs ov mc).id)) := by
  refine ⟨slugify_ok, ?_⟩
  intro oracle text source_file title year cs ov mc
  simp only [parse_text_llm]
  split <;> split <;> first | exact slugify_ok _ | exact slugOk_nil

theorem mem_addSet_of_mem {l : List Str} {x y : Str} (h : x ∈ l) : x ∈ addSet l y := by
  unfold addSet
  split
  · exact h
  · exact List.mem_append_left _ h

theorem mem_addSet_self (l : List Str) (y : Str) : y ∈ addSet l y := by
  unfold addSet
  split
  · assumption
  · exact List.mem_append_right _ (List.mem_singleton.mpr rfl)

theorem mem_foldl_addSet_left : ∀ (cs : List Str) (l : List Str) (x : Str),
    x ∈ l → x ∈ cs.foldl addSet l := by
  intro cs
  induction cs with
  | nil => intro l x h; exact h
  | cons c rest ih =>
    intro l x h
    exact ih (addSet l c) x (mem_addSet_of_mem h)

theorem mem_foldl_addSet_right : ∀ (cs : List Str) (l : List Str) (x : Str),
    x ∈ cs → x ∈ cs.foldl addSet l := by
  intro cs
  induction cs with
  | nil => intro l x h; simp at h
  | cons c rest ih =>
    intro l x h
    rcases List.mem_cons.mp h with h1 | h1
    · subst h1
      exact mem_foldl_addSet_left rest (addSet l x) x (mem_addSet_self l x)
    · exact ih (addSet l c) x h1

theorem mem_pySortedSet {xs : List Str} {x : Str} :
    x ∈ pySortedSet xs ↔ x ∈ xs := by
  unfold pySortedSet
  rw [(List.perm_insertionSort (· ≤ ·) xs.dedup).mem_iff]
  exact List.mem_dedup

/-- The invariant of the item loop: every emitted line's character is in
the character set. -/
theorem convItems_inv : ∀ (items : List Json)
    (acc out : List DialogueLine × List Str),
    (∀ dl ∈ acc.1, dl.character ∈ acc.2) →
    items.foldlM convItemStep acc = .ok out →
    ∀ dl ∈ out.1, dl.character ∈ out.2 := by
  intro items
  induction items with
  | nil =>
    intro acc out hinv h
    rw [List.foldlM_nil] at h
    exact (Except.ok.inj h) ▸ hinv
  | cons item rest ih =>
    intro acc out hinv h
    rw [List.foldlM_cons] at h
    cases hstep : convItemStep acc item with
    | error e =>
      rw [hstep] at h
      have h2 : (Except.error e : Except Unit (List DialogueLine × List Str)) =
          .ok out := h
      exact Except.noConfusion h2
    | ok acc2 =>
      rw [hstep] at h
      have h2 : rest.foldlM convItemStep acc2 = .ok out := h
      refine ih acc2 out ?_ h2
      cases item with
      | obj ms =>
        simp only [convItemStep] at hstep
        split at hstep
        · exact Except.noConfusion hstep
        · split at hstep
          · exact Except.noConfusion hstep
          · split at hstep
            · obtain rfl := Except.ok.inj hstep
              intro dl hdl
              rcases List.mem_append.mp hdl with h1 | h1
              · exact mem_addSet_of_mem (hinv dl h1)
              · rw [List.mem_singleton.mp h1]
                exact mem_addSet_self _ _
            · obtain rfl := Except.ok.inj hstep
              exact hinv
      | null => simp only [convItemStep] at hstep; exact Except.noConfusion hstep
      | bool b => simp only [convItemStep] at hstep; exact Except.noConfusion hstep
      | num lit => simp only [convItemStep] at hstep; exact Except.noConfusion hstep
      | str s => simp only [convItemStep] at hstep; exact Except.noConfusion hstep
      | arr its => simp only [convItemStep] at hstep; exact Except.noConfusion hstep

/-- The character loop only adds names. -/
theorem convChars_mono : ∀ (cl : List Json) (acc out : List Str),
    cl.foldlM convCharStep acc = .ok out → ∀ x ∈ acc, x ∈ out := by
  intro cl
  induction cl with
  | nil =>
    intro acc out h
    rw [List.foldlM_nil] at h
    exact (Except.ok.inj h) ▸ (fun x hx => hx)
  | cons c rest ih =>
    intro acc out h
    rw [List.foldlM_cons] at h
    cases hstep : convCharStep acc c with
    | error e =>
      rw [hstep] at h
      have h2 : (Except.error e : Except Unit (List Str)) = .ok out := h
      exact Except.noConfusion h2
    | ok acc2 =>
      rw [hstep] at h
      have h2 : rest.foldlM convCharStep acc2 = .ok out := h
      intro x hx
      refine ih acc2 out h2 x ?_
      unfold convCharStep at hstep
      split at hstep
      · cases c with
        | str s =>
          obtain rfl := Except.ok.inj hstep
          exact mem_addSet_of_mem hx
        | null => exact Except.noConfusion hstep
        | bool b => exact Except.noConfusion hstep
        | num lit => exact Except.noConfusion hstep
        | arr its => exact Except.noConfusion hstep
        | obj ms => exact Except.noConfusion hstep
      · obtain rfl := Except.ok.inj hstep
        exact hx

/-- Every line produced by `_convert_scriptdle_data` has its character in
the returned character set. -/
theorem conv_chars {data : Json} {lines : List DialogueLine} {chars : List Str}
    (h : _convert_scriptdle_data data = .ok (lines, chars)) :
    ∀ dl ∈ lines, dl.character ∈ chars := by
  unfold _convert_scriptdle_data at h
  cases h0 : convGetItems data with
  | error e => rw [h0] at h; exact Except.noConfusion h
  | ok items =>
    rw [h0] at h
    simp only [] at h
    cases h2 : items.foldlM convItemStep ([], []) with
    | error e => rw [h2] at h; exact Except.noConfusion h
    | ok lc =>
      rw [h2] at h
      simp only [] at h
      cases h3 : dictGet data (strL "characters") (.arr []) with
      | error e => rw [h3] at h; exact Except.noConfusion h
      | ok chars0 =>
        rw [h3] at h
        simp only [] at h
        cases h4 : asList chars0 with
        | error e => rw [h4] at h; exact Except.noConfusion h
        | ok cl =>
          rw [h4] at h
          simp only [] at h
          cases h5 : cl.foldlM convCharStep lc.2 with
          | error e => rw [h5] at h; exact Except.noConfusion h
          | ok charsOut =>
            rw [h5] at h
            simp only [] at h
            have hp := Except.ok.inj h
            have hl : lc.1 = lines := congrArg Prod.fst hp
            have hc : charsOut = chars := congrArg Prod.snd hp
            have hinv := convItems_inv items ([], []) lc (by simp) h2
            have hmono := convChars_mono cl lc.2 charsOut h5
            intro dl hdl
            rw [← hc]
            exact hmono _ (hinv dl (hl ▸ hdl))

/-- The roster invariant carried through the chunk loop. -/
def llmInv (acc : List DialogueLine × List Str × Str) : Prop :=
  ∀ dl ∈ acc.1, dl.character ∈ acc.2.1

theorem llmChunkStep_inv (oracle : Nat → Except Str Str)
    (acc : List DialogueLine × List Str × Str) (ic : Nat × Str)
    (h : llmInv acc) : llmInv (llmChunkStep oracle acc ic) := by
  unfold llmChunkStep
  cases oracle ic.1 with
  | error e => exact h
  | ok response =>
    simp only []
    cases _parse_json_response response with
    | none => exact h
    | some data =>
      simp only []
      split
      · exact h
      · cases hconv : _convert_scriptdle_data data with
        | error e => exact h
        | ok lc =>
          simp only []
          intro dl hdl
          rcases List.mem_append.mp hdl with h1 | h1
          · exact mem_foldl_addSet_left _ _ _ (h dl h1)
          · exact mem_foldl_addSet_right _ _ _ (conv_chars hconv dl h1)

theorem foldl_llm_inv (oracle : Nat → Except Str Str) :
    ∀ (l : List (Nat × Str)) (acc : List DialogueLine × List Str × Str),
    llmInv acc → llmInv (l.foldl (llmChunkStep oracle) acc) := by
  intro l
  induction l with
  | nil => intro acc h; exact h
  | cons ic rest ih =>
    intro acc h
    exact ih _ (llmChunkStep_inv oracle acc ic h)

/-- C1 amended: `characters` is always sorted (code-point order) and
duplicate-free and contains the character of every line; for `save_script`
it is exactly `sorted(set(line.character for line in lines))`, while for
`parse_text_llm` the containment can be strict, because every name listed
in a chunk response's top-level `characters` array also enters the roster
even when it speaks no line (see the counterexample). -/
theorem c1_amended :
    (∀ (movie_id title : Str) (year : Int) (ds : List IDialogueLine),
      (save_script movie_id title year ds).characters =
        pySortedSet (ds.map IDialogueLine.character) ∧
      (save_script movie_id title year ds).lines.map DialogueLine.character =
        ds.map IDialogueLine.character) ∧
    (∀ (oracle : Nat → Except Str Str) (text source_file movie_id : Str)
       (title : Option Str) (year : Option Int) (cs ov mc : Nat),
      List.Sorted (· ≤ ·)
        (parse_text_llm oracle text source_file movie_id title year cs ov mc).characters ∧
      (parse_text_llm oracle text source_file movie_id title year cs ov mc).characters.Nodup ∧
      ∀ dl ∈ (parse_text_llm oracle text source_file movie_id title year cs ov mc).lines,
        dl.character ∈
          (parse_text_llm oracle text source_file movie_id title year cs ov mc).characters) := by
  constructor
  · intro movie_id title year ds
    constructor
    · rfl
    · simp [save_script]
  · intro oracle text source_file movie_id title year cs ov mc
    refine ⟨?_, ?_, ?_⟩
    · simp only [parse_text_llm]
      exact List.sorted_insertionSort _ _
    · simp only [parse_text_llm, pySortedSet]
      exact ((List.perm_insertionSort _ _).nodup_iff).mpr (List.nodup_dedup _)
    · simp only [parse_text_llm]
      intro dl hdl
      rw [mem_pySortedSet]
      exact foldl_llm_inv oracle _ ([], [], []) (by simp [llmInv]) dl hdl

/-- Witness for `c1_amended` at a one-line script. -/
theorem c1_amended_witness :
    (save_script (strL "m") (strL "T") 2001
      [⟨strL "B", strL "hi", none⟩]).characters =
      pySortedSet ([(⟨strL "B", strL "hi", none⟩ : IDialogueLine)].map
        IDialogueLine.character) :=
  (c1_amended.1 (strL "m") (strL "T") 2001 [⟨strL "B", strL "hi", none⟩]).1

/-- Witness for `c10_slugify_shape` at a concrete title. -/
theorem c10_witness : slugOk (_slugify (strL "The Matrix")) :=
  c10_slugify_shape.1 (strL "The Matrix")

/-! ## script-parsing-investigation/movie_pipeline.py — overlap validation

`overlap_score` is a Python float `matched/total`; it is modelled in `ℚ`
(the bound and ratio claims are about the exact ratio).  `int(n * 0.6)` is
written `(3 * n) / 5`, which agrees with the double computation for any
feasible word count. -/

structure ValidationResult where
  script_path : Str
  overlap_score : ℚ
  matched_lines : Nat
  total_subtitle_lines : Nat
  sample_matches : List (Str × Str)
deriving DecidableEq, Repr

/-- `normalize_for_comparison`: lower-case, non-`[\w\s']` characters to
spaces, whitespace collapsed. -/
def normalize_for_comparison (text : Str) : Str :=
  joinSep (strL " ")
    (splitWs ((text.map asciiLower).map
      (fun c => if ¬(isWordChar c = true ∨ isPyWs c = true ∨ c = '\'') then ' ' else c)))

/-- The sampling step: `subtitle_lines[::step][:sample_size]` when the
track is large, else all lines. -/
def sampleLines (subtitle_lines : List Str) (sample_size : Nat) : List Str :=
  if subtitle_lines.length > sample_size * 3 then
    (takeEvery (subtitle_lines.length / sample_size) subtitle_lines).take sample_size
  else subtitle_lines

/-- The `for i in range(len(words) - min_match_words + 1)` search for a
matching word sequence; returns the first matching start index. -/
def findPhraseAux (words : List Str) (mm : Nat) (script : Str) :
    Nat → Nat → Option Nat
  | 0, _ => none
  | fuel + 1, i =>
    if i + mm > words.length then none
    else if containsSub (joinSep (strL " ") ((words.drop i).take mm)) script then some i
    else findPhraseAux words mm script fuel (i + 1)

/-- One iteration of the subtitle-line loop: state is
`(matched_count, sample_matches)`. -/
def calcLineStep (script_normalized : Str) (st : Nat × List (Str × Str))
    (line : Str) : Nat × List (Str × Str) :=
  let ln := normalize_for_comparison line
  if ln.length < 10 then st
  else
    let words := splitWs ln
    if words.length < 3 then st
    else
      let mm := max 3 ((3 * words.length) / 5)
      match findPhraseAux words mm script_normalized (words.length + 1) 0 with
      | some i =>
        let matches2 :=
          if st.2.length < 10 then
            let phrase := joinSep (strL " ") ((words.drop i).take mm)
            match pyFind phrase script_normalized with
            | some idx =>
              st.2 ++ [(line.take 80,
                strL "..." ++
                  pySlice script_normalized (idx - 20)
                    (min script_normalized.length (idx + phrase.length + 20)) ++
                  strL "...")]
            | none => st.2
          else st.2
        (st.1 + 1, matches2)
      | none => st

/-- `calculate_overlap`. -/
def calculate_overlap (subtitle_lines : List Str) (script_text : Str)
    (sample_size : Nat) : ValidationResult :=
  let script_normalized := normalize_for_comparison script_text
  let sample := sampleLines subtitle_lines sample_size
  let ms := sample.foldl (calcLineStep script_normalized) (0, [])
  let total := (sample.filter
    (fun l => 10 ≤ (normalize_for_comparison l).length)).length
  { script_path := [],
    overlap_score := if 0 < total then (ms.1 : ℚ) / total else 0,
    matched_lines := ms.1,
    total_subtitle_lines := total,
    sample_matches := ms.2 }

example : normalize_for_comparison (strL "I'll be FINE, Mom.") =
    strL "i'll be fine mom" := by decide

/-- C2 counterexample: a subtitle line drawn verbatim from the script with
fewer than 3 normalized words is counted in `total_checked` but can never
match (the word loop is skipped), so self-validation scores 0, not 1. -/
theorem c2_counterexample :
    (calculate_overlap [strL "abcdefghijk"] (strL "abcdefghijk") 100).matched_lines = 0 ∧
    (calculate_overlap [strL "abcdefghijk"] (strL "abcdefghijk") 100).total_subtitle_lines = 1 ∧
    (calculate_overlap [strL "abcdefghijk"] (strL "abcdefghijk") 100).overlap_score = 0 ∧
    (calculate_overlap [strL "abcdefghijk"] (strL "abcdefghijk") 100).overlap_score ≠ 1 := by
  refine ⟨by decide, by decide, ?_, ?_⟩
  · show (if 0 < 1 then ((0 : ℚ) / (1 : Nat)) else 0) = 0
    norm_num
  · show (if 0 < 1 then ((0 : ℚ) / (1 : Nat)) else 0) ≠ 1
    norm_num

theorem splitWs_proper : ∀ (t : Str) (w : Str), w ∈ splitWs t →
    w ≠ [] ∧ ∀ c ∈ w, isPyWs c = false := by
  intro t
  induction t with
  | nil => intro w hw; simp [splitWs] at hw
  | cons c rest ih =>
    intro w hw
    by_cases hc : isPyWs c
    · rw [splitWs, if_pos hc] at hw
      exact ih w hw
    · rw [splitWs, if_neg hc] at hw
      cases hs : splitWs rest with
      | nil =>
        rw [hs] at hw
        simp only [List.mem_singleton] at hw
        subst hw
        exact ⟨by simp, by
          intro x hx
          simp only [List.mem_singleton] at hx
          subst hx
          simpa using hc⟩
      | cons w1 ws1 =>
        rw [hs] at hw
        cases rest with
        | nil => simp [splitWs] at hs
        | cons d rest2 =>
          simp only [] at hw
          by_cases hd : isPyWs d
          · rw [if_pos hd] at hw
            rcases List.mem_cons.mp hw with h1 | h1
            · subst h1
              exact ⟨by simp, by
                intro x hx
                simp only [List.mem_singleton] at hx
                subst hx
                simpa using hc⟩
            · exact ih w (hs ▸ h1)
          · rw [if_neg hd] at hw
            rcases List.mem_cons.mp hw with h1 | h1
            · subst h1
              have hw1 := ih w1 (hs ▸ List.mem_cons_self _ _)
              refine ⟨by simp, ?_⟩
              intro x hx
              rcases List.mem_cons.mp hx with h2 | h2
              · subst h2; simpa using hc
              · exact hw1.2 x h2
            · exact ih w (hs ▸ List.mem_cons_of_mem _ h1)

/-- A whitespace-free nonempty word splits to itself. -/
theorem splitWs_single : ∀ (w : Str), w ≠ [] → (∀ c ∈ w, isPyWs c = false) →
    splitWs w = [w] := by
  intro w
  induction w with
  | nil => intro h _; exact absurd rfl h
  | cons c rest ih =>
    intro _ hchars
    have hc : ¬isPyWs c = true := by
      simp [hchars c (List.mem_cons_self _ _)]
    rw [splitWs, if_neg hc]
    cases rest with
    | nil => rfl
    | cons d rest2 =>
      have hrest : splitWs (d :: rest2) = [d :: rest2] :=
        ih (by simp) (fun x hx => hchars x (List.mem_cons_of_mem _ hx))
      rw [hrest]
      have hd : ¬isPyWs d = true := by
        simp [hchars d (List.mem_cons_of_mem _ (List.mem_cons_self _ _))]
      simp [hd]

/-- Splitting a word, a space, then more text peels off the word. -/
theorem splitWs_word_space : ∀ (w t : Str), w ≠ [] →
    (∀ c ∈ w, isPyWs c = false) →
    splitWs (w ++ ' ' :: t) = w :: splitWs t := by
  intro w
  induction w with
  | nil => intro t h _; exact absurd rfl h
  | cons c rest ih =>
    intro t _ hchars
    have hc : ¬isPyWs c = true := by
      simp [hchars c (List.mem_cons_self _ _)]
    cases rest with
    | nil =>
      simp only [List.cons_append, List.nil_append]
      rw [splitWs, if_neg hc]
      cases hs : splitWs (' ' :: t) with
      | nil =>
        rw [splitWs] at hs
        simp only [show isPyWs ' ' = true from rfl, if_pos] at hs
        rw [show splitWs t = [] from hs]
      | cons w1 ws1 =>
        rw [splitWs] at hs
        simp only [show isPyWs ' ' = true from rfl, if_pos] at hs
        rw [show splitWs t = w1 :: ws1 from hs]
        rfl
    | cons c2 rw2 =>
      have hrec := ih t (by simp) (fun x hx => hchars x (List.mem_cons_of_mem _ hx))
      simp only [List.cons_append] at hrec ⊢
      rw [splitWs, if_neg hc, hrec]
      have hc2 : ¬isPyWs c2 = true := by
        simp [hchars c2 (List.mem_cons_of_mem _ (List.mem_cons_self _ _))]
      simp [hc2]

theorem split_join_id : ∀ (ws : List Str),
    (∀ w ∈ ws, w ≠ [] ∧ ∀ c ∈ w, isPyWs c = false) →
    splitWs (joinSep (strL " ") ws) = ws := by
  intro ws
  induction ws with
  | nil => intro _; rfl
  | cons w rest ih =>
    intro h
    cases rest with
    | nil =>
      show splitWs w = [w]
      exact splitWs_single w (h w (List.mem_cons_self _ _)).1
        (h w (List.mem_cons_self _ _)).2
    | cons w2 rest2 =>
      show splitWs (w ++ strL " " ++ joinSep (strL " ") (w2 :: rest2)) = _
      rw [show (w ++ strL " " ++ joinSep (strL " ") (w2 :: rest2)) =
        w ++ ' ' :: joinSep (strL " ") (w2 :: rest2) by simp [strL]]
      rw [splitWs_word_space w _ (h w (List.mem_cons_self _ _)).1
        (h w (List.mem_cons_self _ _)).2]
      rw [ih (fun x hx => h x (List.mem_cons_of_mem _ hx))]

theorem joinSep_append (sep : Str) : ∀ (a b : List Str), a ≠ [] → b ≠ [] →
    joinSep sep (a ++ b) = joinSep sep a ++ sep ++ joinSep sep b := by
  intro a
  induction a with
  | nil => intro b h _; exact absurd rfl h
  | cons x a2 ih =>
    intro b _ hb
    cases a2 with
    | nil =>
      cases b with
      | nil => exact absurd rfl hb
      | cons y b2 => rfl
    | cons x2 a3 =>
      have h2 := ih b (by simp) hb
      simp only [List.cons_append] at h2
      show joinSep sep (x :: (x2 :: (a3 ++ b))) = _
      rw [joinSep, h2]
      simp [joinSep, List.append_assoc]

theorem joinSep_take_prefix (ws : List Str) (k : Nat) (hk1 : 1 ≤ k)
    (hk2 : k ≤ ws.length) :
    joinSep (strL " ") (ws.take k) <+: joinSep (strL " ") ws := by
  by_cases hlt : k < ws.length
  · have hsplit : ws = ws.take k ++ ws.drop k := (List.take_append_drop k ws).symm
    have htne : ws.take k ≠ [] := by
      rw [ne_eq, List.take_eq_nil_iff]
      push_neg
      refine ⟨by omega, ?_⟩
      intro h
      rw [h] at hk2
      simp at hk2
      omega
    have hdne : ws.drop k ≠ [] := by
      rw [ne_eq, List.drop_eq_nil_iff]
      omega
    refine ⟨strL " " ++ joinSep (strL " ") (ws.drop k), ?_⟩
    conv_rhs => rw [hsplit]
    rw [joinSep_append _ _ _ htne hdne]
    simp [List.append_assoc]
  · have : k = ws.length := by omega
    rw [this, List.take_length]

theorem isPrefixOf_append (l t : Str) : l.isPrefixOf (l ++ t) = true := by
  induction l with
  | nil => cases t <;> rfl
  | cons c rest ih => simp [List.isPrefixOf, ih]

theorem containsSub_of_infix {l1 l2 : Str} (h : l1 <:+: l2) :
    containsSub l1 l2 = true := by
  obtain ⟨s, t, rfl⟩ := h
  induction s with
  | nil =>
    rw [List.nil_append]
    cases l1 with
    | nil =>
      cases t with
      | nil => rfl
      | cons c r => rfl
    | cons x xs =>
      show ((x :: xs).isPrefixOf ((x :: xs) ++ t) ||
        containsSub (x :: xs) (xs ++ t)) = true
      rw [isPrefixOf_append]
      rfl
  | cons c s2 ih =>
    show (l1.isPrefixOf (c :: (s2 ++ l1 ++ t)) ||
      containsSub l1 (s2 ++ l1 ++ t)) = true
    rw [ih]
    simp

/-- Normalisation emits its words joined by single spaces, so re-splitting
and re-joining is the identity on normalised text. -/
theorem join_split_norm (t : Str) :
    joinSep (strL " ") (splitWs (normalize_for_comparison t)) =
      normalize_for_comparison t := by
  unfold normalize_for_comparison
  rw [split_join_id]
  intro w hw
  exact splitWs_proper _ w hw

/-- The phrase `calculate_overlap` searches for at start index 0: the first
`min_match_words` words of the normalised line. -/
def linePhrase (l : Str) : Str :=
  let words := splitWs (normalize_for_comparison l)
  joinSep (strL " ") (words.take (max 3 ((3 * words.length) / 5)))

theorem linePhrase_within (l : Str)
    (h3 : 3 ≤ (splitWs (normalize_for_comparison l)).length) :
    linePhrase l <+: normalize_for_comparison l := by
  have h1 : 1 ≤ max 3 ((3 * (splitWs (normalize_for_comparison l)).length) / 5) :=
    le_trans (by norm_num) (Nat.le_max_left _ _)
  have hle : max 3 ((3 * (splitWs (normalize_for_comparison l)).length) / 5) ≤
      (splitWs (normalize_for_comparison l)).length := by
    refine max_le h3 ?_
    omega
  have hpre := joinSep_take_prefix (splitWs (normalize_for_comparison l)) _ h1 hle
  rw [join_split_norm] at hpre
  exact hpre

theorem findPhraseAux_zero (words : List Str) (mm : Nat) (script : Str)
    (fuel : Nat) (hmm : mm ≤ words.length)
    (hc : containsSub (joinSep (strL " ") (words.take mm)) script = true) :
    findPhraseAux words mm script (fuel + 1) 0 = some 0 := by
  show (if 0 + mm > words.length then none
    else if containsSub (joinSep (strL " ") ((words.drop 0).take mm)) script = true
      then some 0
    else findPhraseAux words mm script fuel (0 + 1)) = some 0
  rw [if_neg (by omega), List.drop_zero, if_pos hc]

theorem calcLineStep_skip (script : Str) (st : Nat × List (Str × Str)) (l : Str)
    (h : (normalize_for_comparison l).length < 10) :
    calcLineStep script st l = st := by
  simp only [calcLineStep]
  rw [if_pos h]

theorem calcLineStep_fst_le (script : Str) (st : Nat × List (Str × Str))
    (l : Str) : (calcLineStep script st l).1 ≤ st.1 + 1 := by
  simp only [calcLineStep]
  split
  · exact Nat.le_succ _
  · split
    · exact Nat.le_succ _
    · split
      · exact Nat.le_refl _
      · exact Nat.le_succ _

theorem calcLineStep_match (script : Str) (st : Nat × List (Str × Str))
    (l : Str) (h10 : 10 ≤ (normalize_for_comparison l).length)
    (h3w : 3 ≤ (splitWs (normalize_for_comparison l)).length)
    (hfound : containsSub (linePhrase l) script = true) :
    (calcLineStep script st l).1 = st.1 + 1 := by
  have hmm : max 3 ((3 * (splitWs (normalize_for_comparison l)).length) / 5) ≤
      (splitWs (normalize_for_comparison l)).length := by
    refine max_le h3w ?_
    omega
  simp only [linePhrase] at hfound
  simp only [calcLineStep]
  rw [if_neg (by omega), if_neg (by omega),
    findPhraseAux_zero _ _ _ _ hmm hfound]

theorem foldl_calc_fst_le (script : Str) :
    ∀ (lines : List Str) (st : Nat × List (Str × Str)),
      (lines.foldl (calcLineStep script) st).1 ≤
        st.1 + lines.countP (fun l => 10 ≤ (normalize_for_comparison l).length) := by
  intro lines
  induction lines with
  | nil => intro st; simp
  | cons l rest ih =>
    intro st
    rw [List.foldl_cons, List.countP_cons]
    have h1 := calcLineStep_fst_le script st l
    have h2 := ih (calcLineStep script st l)
    by_cases h10 : 10 ≤ (normalize_for_comparison l).length
    · rw [if_pos (decide_eq_true h10)]
      omega
    · rw [if_neg (by simpa using h10)]
      have h3 : calcLineStep script st l = st := calcLineStep_skip script st l (by omega)
      rw [h3] at h2
      rw [h3]
      omega

theorem foldl_calc_fst_eq (script : Str) :
    ∀ (lines : List Str) (st : Nat × List (Str × Str)),
      (∀ l ∈ lines, 10 ≤ (normalize_for_comparison l).length →
        3 ≤ (splitWs (normalize_for_comparison l)).length ∧
        containsSub (linePhrase l) script = true) →
      (lines.foldl (calcLineStep script) st).1 =
        st.1 + lines.countP (fun l => 10 ≤ (normalize_for_comparison l).length) := by
  intro lines
  induction lines with
  | nil => intro st _; simp
  | cons l rest ih =>
    intro st h
    rw [List.foldl_cons, List.countP_cons]
    have h2 := ih (calcLineStep script st l)
      (fun x hx => h x (List.mem_cons_of_mem _ hx))
    by_cases h10 : 10 ≤ (normalize_for_comparison l).length
    · rw [if_pos (decide_eq_true h10)]
      obtain ⟨h3w, hfound⟩ := h l (List.mem_cons_self _ _) h10
      have h1 := calcLineStep_match script st l h10 h3w hfound
      omega
    · rw [if_neg (by simpa using h10)]
      have h3 : calcLineStep script st l = st := calcLineStep_skip script st l (by omega)
      rw [h3] at h2
      rw [h3]
      omega

theorem overlap_score_eq (lines : List Str) (S : Str) (n : Nat) :
    (calculate_overlap lines S n).overlap_score =
      if 0 < ((sampleLines lines n).filter
          (fun l => 10 ≤ (normalize_for_comparison l).length)).length
      then (((sampleLines lines n).foldl
          (calcLineStep (normalize_for_comparison S)) (0, [])).1 : ℚ) /
        (((sampleLines lines n).filter
          (fun l => 10 ≤ (normalize_for_comparison l).length)).length : Nat)
      else 0 := rfl

theorem matched_lines_eq (lines : List Str) (S : Str) (n : Nat) :
    (calculate_overlap lines S n).matched_lines =
      ((sampleLines lines n).foldl
        (calcLineStep (normalize_for_comparison S)) (0, [])).1 := rfl

theorem total_lines_eq (lines : List Str) (S : Str) (n : Nat) :
    (calculate_overlap lines S n).total_subtitle_lines =
      ((sampleLines lines n).filter
        (fun l => 10 ≤ (normalize_for_comparison l).length)).length := rfl

/-- C2 (amended): the overlap score always lies in [0,1] and, when at least
one sampled line passes the minimum-length filter, equals
matched_lines / total_checked (with total_checked counting only lines of
normalised length at least 10).  Self-validation yields score 1 only under
extra hypotheses the spec omits: the subtitle track is small enough that no
sampling occurs, every line's normalisation occurs verbatim inside the
normalised script, every length-eligible line has at least 3 normalised
words (single- or two-word lines are counted in the total but can never
match), and at least one eligible line exists. -/
theorem c2_amended (subtitle_lines : List Str) (script_text : Str)
    (sample_size : Nat) :
    (0 ≤ (calculate_overlap subtitle_lines script_text sample_size).overlap_score ∧
     (calculate_overlap subtitle_lines script_text sample_size).overlap_score ≤ 1 ∧
     (0 < (calculate_overlap subtitle_lines script_text sample_size).total_subtitle_lines →
       (calculate_overlap subtitle_lines script_text sample_size).overlap_score =
         ((calculate_overlap subtitle_lines script_text sample_size).matched_lines : ℚ) /
           ((calculate_overlap subtitle_lines script_text sample_size).total_subtitle_lines : Nat))) ∧
    (subtitle_lines.length ≤ sample_size * 3 →
     (∀ l ∈ subtitle_lines,
        normalize_for_comparison l <:+: normalize_for_comparison script_text) →
     (∀ l ∈ subtitle_lines, 10 ≤ (normalize_for_comparison l).length →
        3 ≤ (splitWs (normalize_for_comparison l)).length) →
     (∃ l ∈ subtitle_lines, 10 ≤ (normalize_for_comparison l).length) →
     (calculate_overlap subtitle_lines script_text sample_size).overlap_score = 1) := by
  refine ⟨⟨?_, ?_, ?_⟩, ?_⟩
  · rw [overlap_score_eq]
    split
    · exact div_nonneg (Nat.cast_nonneg _) (Nat.cast_nonneg _)
    · exact le_refl 0
  · rw [overlap_score_eq]
    split
    · rename_i h
      have hb := foldl_calc_fst_le (normalize_for_comparison script_text)
        (sampleLines subtitle_lines sample_size) (0, [])
      rw [List.countP_eq_length_filter] at hb
      rw [div_le_one (by exact_mod_cast h), Nat.cast_le]
      omega
    · norm_num
  · intro h
    rw [total_lines_eq] at h
    rw [overlap_score_eq, matched_lines_eq, total_lines_eq, if_pos h]
  · intro hsmall hinf h3 hex
    have hsamp : sampleLines subtitle_lines sample_size = subtitle_lines := by
      unfold sampleLines
      rw [if_neg (by omega)]
    have hcnt := foldl_calc_fst_eq (normalize_for_comparison script_text)
      subtitle_lines (0, [])
      (fun l hl h10 => ⟨h3 l hl h10,
        containsSub_of_infix
          ((linePhrase_within l (h3 l hl h10)).isInfix.trans (hinf l hl))⟩)
    rw [List.countP_eq_length_filter] at hcnt
    have htpos : 0 < (subtitle_lines.filter
        (fun l => 10 ≤ (normalize_for_comparison l).length)).length := by
      rw [← List.countP_eq_length_filter]
      refine List.countP_pos_iff.mpr ?_
      obtain ⟨l, hl, h10⟩ := hex
      exact ⟨l, hl, by simpa using h10⟩
    rw [overlap_score_eq, hsamp, hcnt, if_pos htpos, Nat.zero_add]
    exact div_self (Nat.cast_ne_zero.mpr (Nat.pos_iff_ne_zero.mp htpos))

theorem c2_amended_witness :
    (calculate_overlap [strL "hello there world"] (strL "hello there world")
      100).overlap_score = 1 ∧
    (calculate_overlap [strL "hello there world"] (strL "hello there world")
      100).overlap_score =
      ((calculate_overlap [strL "hello there world"] (strL "hello there world")
        100).matched_lines : ℚ) /
        ((calculate_overlap [strL "hello there world"] (strL "hello there world")
          100).total_subtitle_lines : Nat) :=
  ⟨(c2_amended [strL "hello there world"] (strL "hello there world") 100).2
    (by decide) (by decide) (by decide) (by decide),
   (c2_amended [strL "hello there world"] (strL "hello there world") 100).1.2.2
    (by decide)⟩

/-! ## C4: repair of truncated chunk responses

The canonical well-formed chunk response family: an object with a single
`lines` key holding `n` copies of one dialogue element.  `truncAt i` is
the prefix of `respFull n` (for `i < n`) that ends right after the `i`-th
element separator comma. -/

def elemStr : Str := strL "\x7b\"character\": \"A\", \"text\": \"HI\"\x7d"

def elemJson : Json :=
  .obj [(strL "character", .str (strL "A")), (strL "text", .str (strL "HI"))]

def respFull (n : Nat) : Str :=
  strL "\x7b\"lines\": [" ++ joinSep (strL ", ") (List.replicate n elemStr) ++
    strL "]\x7d"

def truncAt (i : Nat) : Str :=
  strL "\x7b\"lines\": [" ++ joinSep (strL ", ") (List.replicate i elemStr) ++
    strL ","

theorem isPrefixOf_nil (l : Str) : ([] : Str).isPrefixOf l = true := by
  cases l <;> rfl

/-- The element loop of the JSON parser: after a separator, consuming the
remaining `j+1` elements and the closing bracket appends their values. -/
theorem elemsLoopTail : ∀ (j k : Nat) (acc : List Json) (t : Str),
    parseJ (j + k + 6) (.elems acc)
      (' ' :: (joinSep (strL ", ") (List.replicate (j + 1) elemStr) ++ ']' :: t)) =
    some (.arr (acc ++ List.replicate (j + 1) elemJson), t) := by
  intro j
  induction j with
  | zero => intro k acc t; rfl
  | succ j ih =>
    intro k acc t
    rw [show j + 1 + k + 6 = j + k + 6 + 1 from by omega]
    show parseJ (j + k + 6) (.elems (acc ++ [elemJson]))
      (' ' :: (joinSep (strL ", ") (List.replicate (j + 1) elemStr) ++ ']' :: t)) =
      some (.arr (acc ++ List.replicate (j + 1 + 1) elemJson), t)
    rw [ih k (acc ++ [elemJson]) t]
    simp [List.replicate_succ, List.append_assoc]

/-- Entering the element loop right after the opening bracket. -/
theorem elemsLoopTop : ∀ (j k : Nat) (t : Str),
    parseJ (j + k + 7) (.elems [])
      (joinSep (strL ", ") (List.replicate (j + 1) elemStr) ++ ']' :: t) =
    some (.arr (List.replicate (j + 1) elemJson), t) := by
  intro j
  cases j with
  | zero => intro k t; rfl
  | succ j =>
    intro k t
    rw [show j + 1 + k + 7 = j + k + 6 + 2 from by omega]
    show parseJ (j + (k + 1) + 6) (.elems ([] ++ [elemJson]))
      (' ' :: (joinSep (strL ", ") (List.replicate (j + 1) elemStr) ++ ']' :: t)) =
      some (.arr (List.replicate (j + 1 + 1) elemJson), t)
    rw [elemsLoopTail j (k + 1) ([] ++ [elemJson]) t]
    simp [List.replicate_succ, List.append_assoc]

/-- Parsing the `lines` array value (preceded by the space after the
colon). -/
theorem arrValueParse (j k : Nat) (t : Str) :
    parseJ (j + k + 8) .value
      (' ' :: '[' :: (joinSep (strL ", ") (List.replicate (j + 1) elemStr) ++ ']' :: t)) =
    some (.arr (List.replicate (j + 1) elemJson), t) := by
  obtain ⟨Y, hY⟩ : ∃ Y,
      joinSep (strL ", ") (List.replicate (j + 1) elemStr) = '\x7b' :: Y := by
    cases j with
    | zero => exact ⟨_, rfl⟩
    | succ j2 => exact ⟨_, rfl⟩
  rw [hY]
  show parseJ (j + k + 7) (.elems []) (('\x7b' :: Y) ++ ']' :: t) =
    some (.arr (List.replicate (j + 1) elemJson), t)
  rw [← hY]
  exact elemsLoopTop j k t

/-- The object-member loop on the single `lines` member, given the parse
of the member value. -/
theorem memLinesParse (f : Nat) (r3 : Str) (v : Json) (t : Str)
    (h : parseJ f .value (' ' :: r3) = some (v, '\x7d' :: t)) :
    parseJ (f + 1) (.members []) (strL "\"lines\": " ++ r3) =
      some (.obj [(strL "lines", v)], t) := by
  show (match parseJ f .value (' ' :: r3) with
    | some (v2, r4) =>
      match skipJWs r4 with
      | ',' :: r5 => parseJ f (.members ([] ++ [(strL "lines", v2)])) r5
      | '\x7d' :: r5 => some (Json.obj ([] ++ [(strL "lines", v2)]), r5)
      | _ => none
    | none => none) = some (Json.obj [(strL "lines", v)], t)
  rw [h]
  rfl

/-- Same loop when the member value fails to parse. -/
theorem memLinesParseNone (f : Nat) (r3 : Str)
    (h : parseJ f .value (' ' :: r3) = none) :
    parseJ (f + 1) (.members []) (strL "\"lines\": " ++ r3) = none := by
  show (match parseJ f .value (' ' :: r3) with
    | some (v2, r4) =>
      match skipJWs r4 with
      | ',' :: r5 => parseJ f (.members ([] ++ [(strL "lines", v2)])) r5
      | '\x7d' :: r5 => some (Json.obj ([] ++ [(strL "lines", v2)]), r5)
      | _ => none
    | none => none) = none
  rw [h]

/-- Parsing a whole single-member object text given the member value. -/
theorem braceLinesParse (f : Nat) (r3 : Str) (v : Json) (t : Str)
    (h : parseJ f .value (' ' :: r3) = some (v, '\x7d' :: t)) :
    parseJ (f + 2) .value (strL "\x7b\"lines\": " ++ r3) =
      some (.obj [(strL "lines", v)], t) := by
  show parseJ (f + 1) (.members []) (strL "\"lines\": " ++ r3) =
    some (.obj [(strL "lines", v)], t)
  exact memLinesParse f r3 v t h

/-- The whole-object parse fails when the member value fails. -/
theorem braceLinesParseNone (f : Nat) (r3 : Str)
    (h : parseJ f .value (' ' :: r3) = none) :
    parseJ (f + 2) .value (strL "\x7b\"lines\": " ++ r3) = none := by
  show parseJ (f + 1) (.members []) (strL "\"lines\": " ++ r3) = none
  exact memLinesParseNone f r3 h

theorem joinRep_length : ∀ j : Nat,
    (joinSep (strL ", ") (List.replicate (j + 1) elemStr)).length = 34 * j + 32 := by
  intro j
  induction j with
  | zero => rfl
  | succ j ih =>
    show (elemStr ++ (strL ", " ++ joinSep (strL ", ") (List.replicate (j + 1) elemStr))).length =
      34 * (j + 1) + 32
    rw [List.length_append, List.length_append, ih,
      show elemStr.length = 32 from rfl, show (strL ", ").length = 2 from rfl]
    omega

theorem respFull_length (j : Nat) : (respFull (j + 1)).length = 34 * j + 45 := by
  unfold respFull
  rw [List.length_append, List.length_append, joinRep_length,
    show (strL "\x7b\"lines\": [").length = 11 from rfl,
    show (strL "]\x7d").length = 2 from rfl]
  omega

theorem truncAt_length (j : Nat) : (truncAt (j + 1)).length = 34 * j + 44 := by
  unfold truncAt
  rw [List.length_append, List.length_append, joinRep_length,
    show (strL "\x7b\"lines\": [").length = 11 from rfl,
    show (strL ",").length = 1 from rfl]
  omega

/-- `json.loads` accepts the canonical untruncated (or repaired) response
and yields the expected object. -/
theorem loads_respFull (j : Nat) :
    loads (respFull (j + 1)) =
      some (.obj [(strL "lines", .arr (List.replicate (j + 1) elemJson))]) := by
  have harr := arrValueParse j (67 * j + 82) ('\x7d' :: [])
  rw [show j + (67 * j + 82) + 8 = 68 * j + 90 from by ring] at harr
  have hb := braceLinesParse (68 * j + 90)
    ('[' :: (joinSep (strL ", ") (List.replicate (j + 1) elemStr) ++ ']' :: '\x7d' :: []))
    (.arr (List.replicate (j + 1) elemJson)) [] harr
  unfold loads
  rw [respFull_length, show 2 * (34 * j + 45) + 2 = 68 * j + 90 + 2 from by ring]
  rw [show respFull (j + 1) = strL "\x7b\"lines\": " ++
    ('[' :: (joinSep (strL ", ") (List.replicate (j + 1) elemStr) ++ ']' :: '\x7d' :: []))
    from rfl]
  rw [hb]
  rfl

theorem elemsLoopTailTrunc : ∀ (j k : Nat) (acc : List Json),
    parseJ (j + k + 6) (.elems acc)
      (' ' :: (joinSep (strL ", ") (List.replicate (j + 1) elemStr) ++ strL ",")) =
    none := by
  intro j
  induction j with
  | zero => intro k acc; rfl
  | succ j ih =>
    intro k acc
    rw [show j + 1 + k + 6 = j + k + 6 + 1 from by omega]
    show parseJ (j + k + 6) (.elems (acc ++ [elemJson]))
      (' ' :: (joinSep (strL ", ") (List.replicate (j + 1) elemStr) ++ strL ",")) = none
    exact ih k (acc ++ [elemJson])

theorem elemsLoopTopTrunc : ∀ (j k : Nat),
    parseJ (j + k + 7) (.elems [])
      (joinSep (strL ", ") (List.replicate (j + 1) elemStr) ++ strL ",") = none := by
  intro j
  cases j with
  | zero => intro k; rfl
  | succ j =>
    intro k
    rw [show j + 1 + k + 7 = j + k + 6 + 2 from by omega]
    show parseJ (j + (k + 1) + 6) (.elems ([] ++ [elemJson]))
      (' ' :: (joinSep (strL ", ") (List.replicate (j + 1) elemStr) ++ strL ",")) = none
    exact elemsLoopTailTrunc j (k + 1) ([] ++ [elemJson])

theorem arrValueTruncNone (j k : Nat) :
    parseJ (j + k + 8) .value
      (' ' :: '[' :: (joinSep (strL ", ") (List.replicate (j + 1) elemStr) ++ strL ",")) =
    none := by
  obtain ⟨Y, hY⟩ : ∃ Y,
      joinSep (strL ", ") (List.replicate (j + 1) elemStr) = '\x7b' :: Y := by
    cases j with
    | zero => exact ⟨_, rfl⟩
    | succ j2 => exact ⟨_, rfl⟩
  rw [hY]
  show parseJ (j + k + 7) (.elems []) (('\x7b' :: Y) ++ strL ",") = none
  rw [← hY]
  exact elemsLoopTopTrunc j k

/-- `json.loads` rejects the truncated response: the element loop reaches
the dangling separator comma and finds no further value. -/
theorem loads_truncAt (j : Nat) : loads (truncAt (j + 1)) = none := by
  have harr := arrValueTruncNone j (67 * j + 80)
  rw [show j + (67 * j + 80) + 8 = 68 * j + 88 from by ring] at harr
  have hb := braceLinesParseNone (68 * j + 88)
    ('[' :: (joinSep (strL ", ") (List.replicate (j + 1) elemStr) ++ strL ",")) harr
  unfold loads
  rw [truncAt_length, show 2 * (34 * j + 44) + 2 = 68 * j + 88 + 2 from by ring]
  rw [show truncAt (j + 1) = strL "\x7b\"lines\": " ++
    ('[' :: (joinSep (strL ", ") (List.replicate (j + 1) elemStr) ++ strL ",")) from rfl]
  rw [hb]

/-- `rfind(',')` on a text ending in a comma returns the final index. -/
theorem pyRfind_last : ∀ xs : Str,
    pyRfind (strL ",") (xs ++ strL ",") = some xs.length := by
  intro xs
  induction xs with
  | nil => rfl
  | cons x rest ih =>
    show (match pyRfind (strL ",") (rest ++ strL ",") with
      | some i => some (i + 1)
      | none =>
        if (strL ",").isPrefixOf (x :: (rest ++ strL ",")) = true then some 0
        else none) = some (x :: rest).length
    rw [ih]
    rfl

theorem count_joinRep (c : Char) : ∀ j : Nat,
    (joinSep (strL ", ") (List.replicate (j + 1) elemStr)).count c =
      (j + 1) * elemStr.count c + j * (strL ", ").count c := by
  intro j
  induction j with
  | zero =>
    show elemStr.count c = 1 * elemStr.count c + 0 * (strL ", ").count c
    omega
  | succ j ih =>
    show (elemStr ++ (strL ", " ++
        joinSep (strL ", ") (List.replicate (j + 1) elemStr))).count c =
      (j + 1 + 1) * elemStr.count c + (j + 1) * (strL ", ").count c
    rw [List.count_append, List.count_append, ih]
    ring

theorem truncAt_counts (j : Nat) :
    (truncAt (j + 1)).count '\x7b' = j + 2 ∧
    (truncAt (j + 1)).count '\x7d' = j + 1 ∧
    (truncAt (j + 1)).count '[' = 1 ∧
    (truncAt (j + 1)).count ']' = 0 := by
  unfold truncAt
  refine ⟨?_, ?_, ?_, ?_⟩ <;>
    rw [List.count_append, List.count_append, count_joinRep] <;>
    simp only [show elemStr.count '\x7b' = 1 from rfl,
      show elemStr.count '\x7d' = 1 from rfl,
      show elemStr.count '[' = 0 from rfl,
      show elemStr.count ']' = 0 from rfl,
      show (strL ", ").count '\x7b' = 0 from rfl,
      show (strL ", ").count '\x7d' = 0 from rfl,
      show (strL ", ").count '[' = 0 from rfl,
      show (strL ", ").count ']' = 0 from rfl,
      show (strL ",").count '\x7b' = 0 from rfl,
      show (strL ",").count '\x7d' = 0 from rfl,
      show (strL ",").count '[' = 0 from rfl,
      show (strL ",").count ']' = 0 from rfl,
      show (strL "\x7b\"lines\": [").count '\x7b' = 1 from rfl,
      show (strL "\x7b\"lines\": [").count '\x7d' = 0 from rfl,
      show (strL "\x7b\"lines\": [").count '[' = 1 from rfl,
      show (strL "\x7b\"lines\": [").count ']' = 0 from rfl] <;>
    ring

theorem mem_joinRep {c : Char} : ∀ j : Nat,
    c ∈ joinSep (strL ", ") (List.replicate (j + 1) elemStr) →
    c ∈ elemStr ∨ c ∈ strL ", " := by
  intro j
  induction j with
  | zero =>
    intro h
    have h2 : c ∈ elemStr := h
    exact Or.inl h2
  | succ j ih =>
    intro h
    have h2 : c ∈ elemStr ++ (strL ", " ++
        joinSep (strL ", ") (List.replicate (j + 1) elemStr)) := h
    rcases List.mem_append.mp h2 with h3 | h3
    · exact Or.inl h3
    · rcases List.mem_append.mp h3 with h4 | h4
      · exact Or.inr h4
      · exact ih h4

/-- `find` misses a needle whose first character never occurs. -/
theorem pyFind_head_none (c0 : Char) (nt : Str) :
    ∀ l : Str, (∀ c ∈ l, ¬c = c0) → pyFind (c0 :: nt) l = none := by
  intro l
  induction l with
  | nil => intro _; rfl
  | cons c rest ih =>
    intro h
    show (if (c0 :: nt).isPrefixOf (c :: rest) = true then some 0
      else (pyFind (c0 :: nt) rest).map (fun a => a + 1)) = none
    have hc : (c0 == c) = false :=
      beq_eq_false_iff_ne.mpr (fun e => h c (List.mem_cons_self _ _) e.symm)
    have hpfx : (c0 :: nt).isPrefixOf (c :: rest) = false := by
      show (c0 == c && nt.isPrefixOf rest) = false
      rw [hc]
      rfl
    rw [if_neg (by simp [hpfx])]
    rw [ih (fun x hx => h x (List.mem_cons_of_mem _ hx))]
    rfl

theorem fence_truncAt (j : Nat) : fenceExtract (truncAt (j + 1)) = none := by
  obtain ⟨c0, nt, hsh⟩ : ∃ c0 nt, strL "```" = c0 :: nt := ⟨_, _, rfl⟩
  have hpre : ∀ c ∈ strL "\x7b\"lines\": [", c ∉ strL "```" := by decide
  have helem : ∀ c ∈ elemStr, c ∉ strL "```" := by decide
  have hsep : ∀ c ∈ strL ", ", c ∉ strL "```" := by decide
  have hcm : ∀ c ∈ strL ",", c ∉ strL "```" := by decide
  have hmem : ∀ c ∈ truncAt (j + 1), ¬c = c0 := by
    intro c hc he
    have hin : c ∈ strL "```" := by
      rw [hsh]
      exact he ▸ List.mem_cons_self _ _
    unfold truncAt at hc
    rcases List.mem_append.mp hc with h3 | h3
    · rcases List.mem_append.mp h3 with h4 | h4
      · exact hpre c h4 hin
      · rcases mem_joinRep j h4 with h5 | h5
        · exact helem c h5 hin
        · exact hsep c h5 hin
    · exact hcm c h3 hin
  unfold fenceExtract
  rw [hsh, pyFind_head_none c0 nt _ hmem]

theorem repair_truncAt (j : Nat) :
    _repair_json (truncAt (j + 1)) =
      some (.obj [(strL "lines", .arr (List.replicate (j + 1) elemJson))]) := by
  obtain ⟨h1, h2, h3, h4⟩ := truncAt_counts j
  simp only [_repair_json]
  rw [h1, h2, h3, h4]
  rw [if_pos (Or.inl (by omega))]
  have hform : truncAt (j + 1) =
      (strL "\x7b\"lines\": [" ++
        joinSep (strL ", ") (List.replicate (j + 1) elemStr)) ++ strL "," := by
    unfold truncAt
    rw [List.append_assoc]
  rw [hform, pyRfind_last]
  simp only []
  rw [if_pos (by rw [List.length_append,
    show (strL "\x7b\"lines\": [").length = 11 from rfl]; omega)]
  rw [List.take_left]
  rw [show (1 : Nat) - 0 = 1 from rfl, show j + 2 - (j + 1) = 1 from by omega,
    List.replicate_one, List.replicate_one]
  rw [show strL "\x7b\"lines\": [" ++
      joinSep (strL ", ") (List.replicate (j + 1) elemStr) ++ [']'] ++ ['\x7d'] =
      respFull (j + 1) from by unfold respFull; rw [List.append_assoc]; rfl]
  exact loads_respFull j

theorem isPrefixOf_single (c : Char) (l : Str) :
    ([c] : Str).isPrefixOf (c :: l) = true := by
  show ((c == c) && List.isPrefixOf [] l) = true
  rw [isPrefixOf_nil, beq_self_eq_true]
  rfl

theorem braceFallback_truncAt (j : Nat) :
    braceFallback (truncAt (j + 1)) =
      some (.obj [(strL "lines", .arr (List.replicate (j + 1) elemJson))]) := by
  have hfind : pyFind (strL "\x7b") (truncAt (j + 1)) = some 0 := by
    rw [show truncAt (j + 1) = '\x7b' ::
      (strL "\"lines\": [" ++ joinSep (strL ", ") (List.replicate (j + 1) elemStr) ++
        strL ",") from rfl]
    show (if (['\x7b'] : Str).isPrefixOf ('\x7b' ::
        (strL "\"lines\": [" ++ joinSep (strL ", ") (List.replicate (j + 1) elemStr) ++
          strL ",")) = true then some 0
      else (pyFind (strL "\x7b")
        (strL "\"lines\": [" ++ joinSep (strL ", ") (List.replicate (j + 1) elemStr) ++
          strL ",")).map (fun a => a + 1)) = some 0
    rw [isPrefixOf_single]
    rfl
  unfold braceFallback
  rw [hfind]
  simp only []
  rw [List.drop_zero, loads_truncAt j]
  simp only []
  rw [repair_truncAt j]
  rfl

theorem parse_response_truncAt (j : Nat) :
    _parse_json_response (truncAt (j + 1)) =
      some (.obj [(strL "lines", .arr (List.replicate (j + 1) elemJson))]) := by
  unfold _parse_json_response
  rw [loads_truncAt j]
  simp only []
  rw [fence_truncAt j]
  simp only []
  rw [braceFallback_truncAt j]

theorem respFull_split (j m : Nat) :
    respFull (j + 1 + (m + 1)) =
      truncAt (j + 1) ++ (' ' ::
        (joinSep (strL ", ") (List.replicate (m + 1) elemStr) ++ strL "]\x7d")) := by
  unfold respFull truncAt
  rw [List.replicate_add]
  rw [joinSep_append (strL ", ") _ _
    (by rw [List.replicate_succ]; exact List.cons_ne_nil _ _)
    (by rw [List.replicate_succ]; exact List.cons_ne_nil _ _)]
  have hsep : ∀ X : Str, strL ", " ++ X = strL "," ++ (' ' :: X) := fun X => rfl
  simp only [List.append_assoc, List.cons_append, hsep]

/-- C4 counterexample: a well-formed two-element chunk response truncated
mid-way through the second element (an "arbitrary point after at least one
complete array element") is NOT repaired: the closing-bracket counts are
taken before trimming to the last comma, so the repaired text carries a
surplus brace, `json.loads` fails again and `_parse_json_response` returns
`None` instead of recovering the first complete element. -/
theorem c4_counterexample :
    (strL "\x7b\"lines\": [\x7b\"character\": \"A\", \"text\": \"HI\"\x7d, \x7b\"character\"").isPrefixOf
      (respFull 2) = true ∧
    loads (respFull 2) =
      some (.obj [(strL "lines", .arr [elemJson, elemJson])]) ∧
    _parse_json_response
      (strL "\x7b\"lines\": [\x7b\"character\": \"A\", \"text\": \"HI\"\x7d, \x7b\"character\"") =
      none := by
  refine ⟨rfl, rfl, rfl⟩

/-- C4 (amended): the repair round-trip holds only for truncation points
falling immediately after an element-separator comma (before the next
element contributes internal commas or braces).  For every `1 ≤ i < n`,
truncating the canonical `n`-element response right after the `i`-th
separator comma gives a prefix of the full response on which `json.loads`
fails but `_parse_json_response` recovers, via `_repair_json`, exactly the
object holding the first `i` complete elements. -/
theorem c4_amended (i n : Nat) (hi : 1 ≤ i) (hn : i < n) :
    (truncAt i).isPrefixOf (respFull n) = true ∧
    loads (truncAt i) = none ∧
    _parse_json_response (truncAt i) =
      some (.obj [(strL "lines", .arr (List.replicate i elemJson))]) := by
  obtain ⟨j, rfl⟩ : ∃ j, i = j + 1 := ⟨i - 1, by omega⟩
  obtain ⟨m, rfl⟩ : ∃ m, n = j + 1 + (m + 1) := ⟨n - j - 2, by omega⟩
  refine ⟨?_, loads_truncAt j, parse_response_truncAt j⟩
  rw [respFull_split j m]
  exact isPrefixOf_append _ _

theorem c4_amended_witness :
    (truncAt 1).isPrefixOf (respFull 2) = true ∧
    loads (truncAt 1) = none ∧
    _parse_json_response (truncAt 1) =
      some (.obj [(strL "lines", .arr (List.replicate 1 elemJson))]) :=
  c4_amended 1 2 (by decide) (by decide)
